import Mathlib

/-!
# Verification of the CashApp ledger core (src/app.py, src/db.py)

A shallow embedding of the ledger transaction engine of the repository:
amount parsing/formatting (`parse_amount_input`, `format_amount_display`),
date normalization (`parse_date`), the in-memory table with its sorting
rules (`sort_by_column`), the undo stack (`_push_undo`, `undo`), the SQLite
store (db.py) and the mutating operations `add_item` / `remove_selected`.

Python floats are modelled as exact rationals (`ℚ`), Python strings as
`List Char` / `String`.  The pandas stable `kind="mergesort"` sort is
modelled by `List.insertionSort`, which computes the same function as any
stable sort (elements ordered by key, ties kept in original relative
order).
-/

set_option maxHeartbeats 1000000

namespace CashApp

/-! ## Character / string helpers (models of Python `str` builtins) -/

/-- The apostrophe character, written via its code point. -/
def apoCh : Char := Char.ofNat 39

/-- Whitespace as recognized by Python `str.strip()` (the ASCII cases that
can occur in this application's text fields). -/
def isSpaceCh (c : Char) : Bool :=
  c == ' ' || c == '\t' || c == '\n' || c == '\r' || c == '\x0b' || c == '\x0c'

/-- Model of Python `str.strip()`: drop whitespace from both ends. -/
def pyStrip (l : List Char) : List Char :=
  ((l.dropWhile isSpaceCh).reverse.dropWhile isSpaceCh).reverse

/-- Model of Python `str.split(sep)` for a one-character separator:
`"".split(".") = [""]`, separators at the ends produce empty fields. -/
def splitOnCh (c : Char) : List Char → List (List Char)
  | [] => [[]]
  | x :: xs =>
    match splitOnCh c xs with
    | [] => [[]]
    | h :: t => if x = c then [] :: h :: t else (x :: h) :: t

/-- ASCII decimal digit test. -/
def isDigitCh (c : Char) : Bool := '0' ≤ c && c ≤ '9'

/-- Value of an ASCII digit character. -/
def digitVal (c : Char) : ℕ := c.toNat - 48

/-- The digit character for `d` (`d ≤ 9`). -/
def dCh (d : ℕ) : Char :=
  match d with
  | 0 => '0' | 1 => '1' | 2 => '2' | 3 => '3' | 4 => '4'
  | 5 => '5' | 6 => '6' | 7 => '7' | 8 => '8' | _ => '9'

/-- Numeric value of a digit string (most significant first). -/
def digitsToNat (l : List Char) : ℕ :=
  l.foldl (fun a c => 10 * a + digitVal c) 0

/-- Big-endian digit rendering, with fuel for structural recursion. -/
def natDigitsAux : ℕ → ℕ → List Char
  | 0, _ => []
  | fuel + 1, n =>
    if n = 0 then [] else natDigitsAux fuel (n / 10) ++ [dCh (n % 10)]

/-- Big-endian digit rendering of a natural number (`0` renders as "0"). -/
def natRender (n : ℕ) : List Char :=
  if n = 0 then ['0'] else natDigitsAux (n + 1) n

/-- Model of Python `float(s)` restricted to plain decimal literals
(optional sign, digits, optional single decimal point; Python additionally
accepts exponents and special values, which never reach this call in the
flows under verification). -/
def pyFloat (l : List Char) : Option ℚ :=
  let sg : ℚ := if l.head? = some '-' then -1 else 1
  let m : List Char :=
    if l.head? = some '-' ∨ l.head? = some '+' then l.tail else l
  match splitOnCh '.' m with
  | [ds] =>
    if ds ≠ [] ∧ ds.all isDigitCh then some (sg * (digitsToNat ds : ℚ)) else none
  | [ip, fp] =>
    if (ip ≠ [] ∨ fp ≠ []) ∧ ip.all isDigitCh ∧ fp.all isDigitCh then
      some (sg * ((digitsToNat ip : ℚ) + (digitsToNat fp : ℚ) / 10 ^ fp.length))
    else none
  | _ => none

/-! ## AmountFormat: `parse_amount_input` (app.py lines 52-82) -/

/-- The separator-disambiguation step of `parse_amount_input`
(app.py lines 61-75), applied to the sign-stripped body. -/
def normalizeSeparators (b : List Char) : List Char :=
  if '.' ∈ b ∧ ',' ∈ b then
    (b.filter (fun c => c != '.')).map (fun c => if c = ',' then '.' else c)
  else if ',' ∈ b ∧ '.' ∉ b then
    b.map (fun c => if c = ',' then '.' else c)
  else if '.' ∈ b ∧ ',' ∉ b then
    let parts := splitOnCh '.' b
    if 2 < parts.length then parts.flatten
    else
      match parts with
      | [ip, fp] => if fp.length = 3 ∧ ip.length ≤ 3 then ip ++ fp else b
      | _ => b
  else b

/-- Model of `parse_amount_input` (app.py lines 52-82).  `none` models the
raised `ValueError`. -/
def parseAmount (s : String) : Option ℚ :=
  let t := pyStrip s.toList
  if t = [] then none
  else
    let sign : ℚ := if t.head? = some '-' then -1 else 1
    let body := if t.head? = some '-' ∨ t.head? = some '+' then pyStrip t.tail else t
    let body := normalizeSeparators body
    let body := body.filter (fun c => c != ' ' && c != apoCh)
    (pyFloat body).map (fun v => sign * v)

/-! ## AmountFormat: `format_amount_display` (app.py lines 43-50) -/

/-- Round half to even, as Python's float formatting does on the exact
value. -/
def rndHalfEven (q : ℚ) : ℤ :=
  let f := ⌊q⌋
  if q - f < 1 / 2 then f
  else if 1 / 2 < q - f then f + 1
  else if f % 2 = 0 then f else f + 1

/-- Thousands grouping: insert `'.'` every three digits counting from the
right.  The source formats with `','` groups via `f"{v:,.2f}"` and then
swaps `','` and `'.'` (the `_TMP_` dance of app.py line 49); this function
produces the post-swap grouping directly. -/
def groupDigitsAux : ℕ → List Char → List Char
  | 0, l => l
  | fuel + 1, l =>
    if l.length ≤ 3 then l
    else
      let k := (l.length - 1) % 3 + 1
      l.take k ++ '.' :: groupDigitsAux fuel (l.drop k)

/-- Thousands grouping, entry point: the fuel `l.length` always suffices. -/
def groupDigits (l : List Char) : List Char := groupDigitsAux l.length l

/-- Model of `format_amount_display` on a numeric value (app.py lines
43-50): fixed `d` decimals, `','` as decimal separator, `'.'` as thousands
separator. -/
def formatAmount (v : ℚ) (d : ℕ) : String :=
  let n : ℤ := rndHalfEven (v * 10 ^ d)
  let m : ℕ := n.natAbs
  let ip : ℕ := m / 10 ^ d
  let fp : ℕ := m % 10 ^ d
  let fpR := natRender fp
  let chars :=
    (if v < 0 then ['-'] else []) ++ groupDigits (natRender ip) ++
      (if d = 0 then [] else ',' :: (List.replicate (d - fpR.length) '0' ++ fpR))
  String.mk chars

/-! ## Dates: `parse_date` (app.py lines 337-352) and the sort key
(app.py lines 293-301) -/

/-- Gregorian leap year. -/
def isLeap (y : ℕ) : Bool := (y % 4 == 0 && y % 100 != 0) || y % 400 == 0

/-- Days in a month. -/
def daysInMonth (y m : ℕ) : ℕ :=
  if m = 2 then (if isLeap y then 29 else 28)
  else if m = 4 ∨ m = 6 ∨ m = 9 ∨ m = 11 then 30
  else 31

/-- Calendar validity as `datetime` enforces it. -/
def validDate (y m d : ℕ) : Bool :=
  1 ≤ y && y ≤ 9999 && 1 ≤ m && m ≤ 12 && 1 ≤ d && d ≤ daysInMonth y m

/-- Model of `datetime.fromisoformat` on the date-only form `YYYY-MM-DD`
(the only form this application stores; times are not modelled). -/
def parseIso (l : List Char) : Option (ℕ × ℕ × ℕ) :=
  match l with
  | [a, b, c, d, s1, e, f, s2, g, h] =>
    if s1 = '-' ∧ s2 = '-' ∧ ([a, b, c, d, e, f, g, h]).all isDigitCh then
      let y := digitsToNat [a, b, c, d]
      let mo := digitsToNat [e, f]
      let dy := digitsToNat [g, h]
      if validDate y mo dy then some (y, mo, dy) else none
    else none
  | _ => none

/-- Model of `datetime.strptime(s, "%d<sep>%m<sep>%Y")`: one- or two-digit
day and month, four-digit year, range-checked. -/
def parseDMYwith (sep : Char) (l : List Char) : Option (ℕ × ℕ × ℕ) :=
  match splitOnCh sep l with
  | [d, m, y] =>
    if d ≠ [] ∧ d.length ≤ 2 ∧ m ≠ [] ∧ m.length ≤ 2 ∧ y.length = 4 ∧
        (d ++ m ++ y).all isDigitCh then
      let dy := digitsToNat d
      let mo := digitsToNat m
      let yr := digitsToNat y
      if validDate yr mo dy then some (yr, mo, dy) else none
    else none
  | _ => none

/-- Model of `datetime.strptime(s, "%Y-%m-%d")` (also with one- or
two-digit month and day). -/
def parseYMD (l : List Char) : Option (ℕ × ℕ × ℕ) :=
  match splitOnCh '-' l with
  | [y, m, d] =>
    if y.length = 4 ∧ m ≠ [] ∧ m.length ≤ 2 ∧ d ≠ [] ∧ d.length ≤ 2 ∧
        (y ++ m ++ d).all isDigitCh then
      let yr := digitsToNat y
      let mo := digitsToNat m
      let dy := digitsToNat d
      if validDate yr mo dy then some (yr, mo, dy) else none
    else none
  | _ => none

/-- Two-digit zero-padded rendering. -/
def pad2 (n : ℕ) : List Char := if n < 10 then '0' :: natRender n else natRender n

/-- `date.isoformat()`: `YYYY-MM-DD`. -/
def renderIso (y m d : ℕ) : String :=
  String.mk (List.replicate (4 - (natRender y).length) '0' ++ natRender y ++
    '-' :: pad2 m ++ '-' :: pad2 d)

/-- Model of `CashApp.parse_date` (app.py lines 337-352).  `today` is the
current date's ISO string (`date.today().isoformat()`), passed explicitly
because the embedding is pure. -/
def parseDate (today : String) (s : String) : String :=
  let t := pyStrip s.toList
  if t = [] then today
  else
    match ((((parseIso t).or (parseYMD t)).or (parseDMYwith '.' t)).or
        (parseDMYwith '/' t)).or (parseDMYwith '-' t) with
    | some (y, m, d) => renderIso y m d
    | none => String.mk t

/-- The `_parse` closure of `sort_by_column`'s date branch (app.py lines
294-301): ISO first, then `%d.%m.%Y`, else `datetime.min` (0001-01-01);
encoded as the serial number `(y * 100 + m) * 100 + d`. -/
def dateKeyNat (s : String) : ℕ :=
  match (parseIso s.toList).or (parseDMYwith '.' s.toList) with
  | some (y, m, d) => (y * 100 + m) * 100 + d
  | none => 10101

/-! ## Data model -/

/-- One transaction row (`COLUMNS = ["id", "date", "group", "description",
"amount"]`). -/
structure Row where
  id : ℕ
  date : String
  group : String
  description : String
  amount : ℚ
deriving DecidableEq, Repr

/-- The active sort (`self.sort_state = {"col": ..., "asc": ...}`). -/
structure SortState where
  col : Option String
  asc : Bool
deriving DecidableEq, Repr

/-- The SQLite store of db.py: the table rows, the AUTOINCREMENT counter,
and an oracle flag injecting I/O failure (`sqlite3` errors). -/
structure StoreState where
  rows : List Row
  nextId : ℕ
  ioFail : Bool
deriving DecidableEq, Repr

/-- An entry of the undo stack (app.py lines 208-212, 381, 432). -/
inductive UndoEntry where
  | add (id : ℕ)
  | delete (rows : List Row)
deriving DecidableEq, Repr

/-- The mutable state of the `CashApp` core: the in-memory table
(`self.df`), the sort state, the undo stack and the store. -/
structure AppState where
  df : List Row
  sortState : SortState
  undoStack : List UndoEntry
  store : StoreState
deriving DecidableEq, Repr

/-! ## Stable sorting by key -/

/-- Key-based comparison used by the stable sorts: ascending or descending
in the key. -/
def keyRel {α K : Type} [LinearOrder K] (k : α → K) : Bool → α → α → Prop
  | true, x, y => k x ≤ k y
  | false, x, y => k y ≤ k x

instance keyRelDecidable {α K : Type} [LinearOrder K] (k : α → K) :
    (a : Bool) → DecidableRel (keyRel k a)
  | true => fun x y => inferInstanceAs (Decidable (k x ≤ k y))
  | false => fun x y => inferInstanceAs (Decidable (k y ≤ k x))

instance keyRelTotal {α K : Type} [LinearOrder K] (k : α → K) :
    (a : Bool) → IsTotal α (keyRel k a)
  | true => ⟨fun x y => le_total (k x) (k y)⟩
  | false => ⟨fun x y => le_total (k y) (k x)⟩

instance keyRelTrans {α K : Type} [LinearOrder K] (k : α → K) :
    (a : Bool) → IsTrans α (keyRel k a)
  | true => ⟨fun _ _ _ hxy hyz => le_trans hxy hyz⟩
  | false => ⟨fun _ _ _ hxy hyz => le_trans hyz hxy⟩

/-- Stable sort by a key, ascending or descending: the model of
`DataFrame.sort_values(..., kind="mergesort")`.  `insertionSort` computes
the same list as any stable sort. -/
def sortOn {α K : Type} [LinearOrder K] (k : α → K) (asc : Bool)
    (l : List α) : List α :=
  List.insertionSort (keyRel k asc) l

/-! ## Store operations (db.py) -/

/-- `db.insert` (db.py lines 40-44): append with a fresh AUTOINCREMENT id;
`none` models a raised `sqlite3` error. -/
def dbInsert (st : StoreState) (date grp desc : String) (amount : ℚ) :
    Option (StoreState × ℕ) :=
  if st.ioFail then none
  else
    let rid := st.nextId
    some ({ st with
            rows := st.rows ++ [⟨rid, date, grp, desc, amount⟩]
            nextId := rid + 1 }, rid)

/-- `db.delete_ids` (db.py lines 46-53): no-op on the empty list, otherwise
delete every row whose id is named. -/
def dbDeleteIds (st : StoreState) (ids : List ℕ) : StoreState :=
  if ids = [] then st
  else { st with rows := st.rows.filter (fun r => !(ids.contains r.id)) }

/-- `db.get_all` (db.py lines 30-38): all rows ordered by ascending id. -/
def dbGetAll (st : StoreState) : List Row := sortOn Row.id true st.rows

/-- The reinsertion step of undo-of-delete (app.py lines 245-262): insert
preserving the row's id; on an `IntegrityError` (id occupied) fall back to
a fresh id.  A failing store swallows the row (the `except` prints and
continues). -/
def dbInsertWithId (st : StoreState) (r : Row) : StoreState × ℕ :=
  if st.ioFail then (st, r.id)
  else if st.rows.any (fun q => q.id == r.id) then
    ({ st with
       rows := st.rows ++ [{ r with id := st.nextId }]
       nextId := st.nextId + 1 }, st.nextId)
  else
    ({ st with rows := st.rows ++ [r], nextId := max st.nextId (r.id + 1) }, r.id)

/-! ## Sorting (app.py lines 280-335) -/

/-- The custom group priority (`self.group_order`, app.py line 100) turned
into the sort key of `order_map` (app.py lines 288-289): position in the
list, `9999` for anything else. -/
def grpKey (g : String) : ℕ :=
  if g = "Gelir" then 0
  else if g = "Gider" then 1
  else if g = "Aktif" then 2
  else if g = "Pasif" then 3
  else 9999

/-- `str.lower()` key used by the text-column branch (app.py line 325). -/
def lowerKey (s : String) : String := String.mk (s.toList.map Char.toLower)

/-- Sum of the amounts of one group (`df[df['group']==g]['amount'].sum()`). -/
def totalFor (g : String) (l : List Row) : ℚ :=
  ((l.filter (fun r => r.group == g)).map Row.amount).sum

/-- The `_pct` per-row percentage key of the percent-column sort
(app.py lines 304-322). -/
def pctKey (l : List Row) (r : Row) : ℚ :=
  let tg := totalFor "Gelir" l
  let td := totalFor "Gider" l
  let ta := totalFor "Aktif" l
  let tp := totalFor "Pasif" l
  let ag := if tg ≠ 0 then |tg| else 0
  let ad := if td ≠ 0 then |td| else 0
  let aap := if ta ≠ 0 ∨ tp ≠ 0 then |ta| + |tp| else 0
  if r.group = "Gelir" ∧ 0 < ag then |r.amount| / ag * 100
  else if r.group = "Gider" ∧ 0 < ad then |r.amount| / ad * 100
  else if (r.group = "Aktif" ∨ r.group = "Pasif") ∧ 0 < aap then
    |r.amount| / aap * 100
  else 0

/-- The per-column sort of `sort_by_column` at a fixed direction
(app.py lines 287-325).  The final `else` branch of the source is the
generic text sort, reached by the `description` column; a `col` that is
not a column of the table raises inside pandas and the handler leaves the
state unchanged, so it never sorts. -/
def applySort (col : String) (asc : Bool) (l : List Row) : List Row :=
  if col = "group" then sortOn (fun r => grpKey r.group) asc l
  else if col = "amount" then sortOn Row.amount asc l
  else if col = "date" then sortOn (fun r => dateKeyNat r.date) asc l
  else if col = "percent" then sortOn (pctKey l) asc l
  else if col = "description" then sortOn (fun r => lowerKey r.description) asc l
  else l

/-- The columns of the Treeview (app.py line 150), the only values
`sort_by_column` is called with. -/
def treeColumns : List String := ["date", "group", "description", "amount", "percent"]

/-- Model of `sort_by_column` (app.py lines 280-335): clicking (or
re-invoking on) the active column flips the direction, any other column
resets to ascending; then the table is stably re-sorted and the sort state
recorded.  An invalid column raises and changes nothing. -/
def sortByColumn (st : AppState) (col : String) : AppState :=
  if col ∈ treeColumns then
    let asc := if st.sortState.col = some col then !st.sortState.asc else true
    { st with df := applySort col asc st.df, sortState := ⟨some col, asc⟩ }
  else st

/-! ## Undo stack (app.py lines 207-277) -/

/-- `UNDO_STACK_MAX` (app.py line 40). -/
def UNDO_STACK_MAX : ℕ := 100

/-- `_push_undo` (app.py lines 208-212): append, then evict index 0 when
the length exceeds the cap. -/
def pushUndo (stack : List UndoEntry) (e : UndoEntry) : List UndoEntry :=
  let s := stack ++ [e]
  if UNDO_STACK_MAX < s.length then s.drop 1 else s

/-- Model of `undo` (app.py lines 214-277).  `pop()` removes the most
recent entry first; the `add` branch deletes the id from store and table
and the `delete` branch reinserts the snapshots and reloads the table from
the store; both re-invoke `sort_by_column` when a sort is active. -/
def undoOp (st : AppState) : AppState :=
  match st.undoStack.getLast? with
  | none => st
  | some entry =>
    let st0 : AppState := { st with undoStack := st.undoStack.dropLast }
    match entry with
    | .add rid =>
      let store1 := dbDeleteIds st0.store [rid]
      let df1 := st0.df.filter (fun r => !(r.id == rid))
      let st1 : AppState := { st0 with store := store1, df := df1 }
      match st1.sortState.col with
      | some c => sortByColumn st1 c
      | none => st1
    | .delete rows =>
      if rows = [] then st0
      else
        let store1 := rows.foldl (fun acc r => (dbInsertWithId acc r).1) st0.store
        let st1 : AppState := { st0 with store := store1, df := dbGetAll store1 }
        match st1.sortState.col with
        | some c => sortByColumn st1 c
        | none => st1

/-! ## `add_item` (app.py lines 354-396) and `remove_selected`
(app.py lines 398-443) -/

/-- Model of `add_item`: normalize the date, strip the description, check
the amount text, parse it, derive the sign from the group, insert into the
store, append to the table, push an `add` undo entry, and re-invoke the
active sort.  Early `return`s (empty or invalid amount, store error) leave
the state unchanged. -/
def addItem (today : String) (st : AppState)
    (dateText grp descText amtText : String) : AppState :=
  let dateStr := parseDate today dateText
  let desc := String.mk (pyStrip descText.toList)
  let amt := pyStrip amtText.toList
  if amt = [] then st
  else
    match parseAmount (String.mk amt) with
    | none => st
    | some rawAmt =>
      let mag := |rawAmt|
      let amtSigned := if grp = "Gider" ∨ grp = "Pasif" then -mag else mag
      match dbInsert st.store dateStr grp desc amtSigned with
      | none => st
      | some (store1, newId) =>
        let newRow : Row := ⟨newId, dateStr, grp, desc, amtSigned⟩
        let st1 : AppState := { st with
          df := st.df ++ [newRow]
          undoStack := pushUndo st.undoStack (.add newId)
          store := store1 }
        match st.sortState.col with
        | some c => sortByColumn st1 c
        | none => st1

/-- Model of `remove_selected` after the user confirmed, with `ids` the
selected ids: snapshot the matching rows, delete from the store, filter
the table, push a `delete` entry only when a row matched, and re-invoke
the active sort.  An empty selection returns early; a store failure aborts
before any state change. -/
def removeSelected (st : AppState) (ids : List ℕ) : AppState :=
  if ids = [] then st
  else if st.store.ioFail then st
  else
    let rows := ids.filterMap (fun rid => st.df.find? (fun r => r.id == rid))
    let store1 := dbDeleteIds st.store ids
    let df1 := st.df.filter (fun r => !(ids.contains r.id))
    let st1 : AppState := { st with
      df := df1
      store := store1
      undoStack := if rows = [] then st.undoStack else pushUndo st.undoStack (.delete rows) }
    match st.sortState.col with
    | some c => sortByColumn st1 c
    | none => st1

/-- The row `add_item` constructs from its inputs once the amount text has
parsed to `x`: fresh id, normalized date, stripped description, and the
group-signed amount (app.py lines 369-378). -/
def addedRow (today dateText grp descText : String) (nid : ℕ) (x : ℚ) : Row :=
  ⟨nid, parseDate today dateText, grp, String.mk (pyStrip descText.toList),
    if grp = "Gider" ∨ grp = "Pasif" then -|x| else |x|⟩

/-! ## Concrete states used by counterexamples and witnesses -/

/-- Two income rows with distinct amounts. -/
def exR1 : Row := ⟨1, "2025-01-01", "Gelir", "elma", 3⟩

/-- Second sample row. -/
def exR2 : Row := ⟨2, "2025-01-01", "Gelir", "armut", 5⟩

/-- A state whose table is sorted ascending by amount, with that sort
active, mirrored by the store. -/
def exSorted : AppState :=
  ⟨[exR1, exR2], ⟨some "amount", true⟩, [], ⟨[exR1, exR2], 3, false⟩⟩

/-- The same table with no active sort. -/
def exNoSort : AppState :=
  ⟨[exR1, exR2], ⟨none, true⟩, [], ⟨[exR1, exR2], 3, false⟩⟩

/-- An income row and an asset row that both sit at 100% of their
normalization bucket. -/
def exP1 : Row := ⟨1, "2025-01-01", "Gelir", "maas", 100⟩

/-- See `exP1`. -/
def exP2 : Row := ⟨2, "2025-01-01", "Aktif", "kasa", 50⟩

/-- A state actively sorted (ascending) on the percent column. -/
def exPercent : AppState :=
  ⟨[exP1, exP2], ⟨some "percent", true⟩, [], ⟨[exP1, exP2], 3, false⟩⟩

/-- A state whose store is failing (I/O error on the next operation). -/
def exFailStore : AppState :=
  ⟨[exR1, exR2], ⟨some "amount", true⟩, [], ⟨[exR1, exR2], 3, true⟩⟩

end CashApp

namespace CashApp

/-! ## Small helper lemmas about the operations -/

/-- `sort_by_column` never touches the store. -/
theorem store_sortByColumn (st : AppState) (c : String) :
    (sortByColumn st c).store = st.store := by
  unfold sortByColumn
  split <;> rfl

/-- `sort_by_column` never touches the undo stack. -/
theorem undoStack_sortByColumn (st : AppState) (c : String) :
    (sortByColumn st c).undoStack = st.undoStack := by
  unfold sortByColumn
  split <;> rfl

/-- The empty string never parses as an amount. -/
theorem parseAmount_empty : parseAmount (String.mk []) = none := rfl

/-! ## C1 -/

/-- **C1** (code bug evidence): from `exSorted`, whose table `[3, 5]` is
ascending by amount with that sort active, `add_item` of amount `4` leaves
the table `[5, 4, 3]` — ordered by the amount column but in the flipped
(descending) direction, with the recorded direction flipped as well; the
result is not ascending-sorted.  The claim (and the comment `# re-apply
sort if needed` in the source) say the active sort is re-applied
unchanged, but `sort_by_column` flips the direction whenever it is invoked
with the currently active column. -/
theorem c1_add_flips_active_sort_direction :
    (addItem "2025-03-01" exSorted "2025-01-02" "Gelir" "kiraz" "4").df =
      [exR2, ⟨3, "2025-01-02", "Gelir", "kiraz", 4⟩, exR1] ∧
    (addItem "2025-03-01" exSorted "2025-01-02" "Gelir" "kiraz" "4").sortState =
      ⟨some "amount", false⟩ ∧
    applySort "amount" true
        (addItem "2025-03-01" exSorted "2025-01-02" "Gelir" "kiraz" "4").df ≠
      (addItem "2025-03-01" exSorted "2025-01-02" "Gelir" "kiraz" "4").df := by
  decide!

/-! ## C2: counterexample to idempotence of two invocations -/

/-- **C2** (counterexample): invoking `sort_by_column` twice on the same
column is not the same as invoking it once — the second invocation flips
the direction and reverses the table. -/
theorem c2_sortBy_twice_differs :
    (sortByColumn (sortByColumn exNoSort "amount") "amount").df ≠
      (sortByColumn exNoSort "amount").df := by
  decide!

/-! ## C3: counterexample to the 1e-9 round-trip -/

/-- **C3** (counterexample): `"0,001"` parses to `1/1000`, but formatting
(at the default two decimals) and re-parsing yields `0`, an error of
`10^-3`, far beyond `1e-9`. -/
theorem c3_roundtrip_exceeds_1e9 :
    parseAmount "0,001" = some (1 / 1000) ∧
    parseAmount (formatAmount (1 / 1000) 2) = some 0 ∧
    ¬ |(0 : ℚ) - 1 / 1000| ≤ 1 / 10 ^ 9 := by
  decide!

/-! ## C4: counterexample to the 1–3-digit grouping rule -/

/-- **C4** (counterexample): by the claimed rule (one group of 1–3 digits
after the dot, at most 3 before), `"123.45"` would be thousands-grouped to
`12345`; the code requires exactly 3 trailing digits, so it parses as the
decimal `123.45`. -/
theorem c4_two_digit_fraction_not_grouped :
    parseAmount "123.45" = some (2469 / 20) ∧ (2469 / 20 : ℚ) ≠ 12345 := by
  decide!

/-! ## C5 -/

/-- **C5**: for a successful add, the stored amount is exactly `-|x|` for
the Expense (`Gider`) and Liability (`Pasif`) groups and exactly `+|x|`
for Income (`Gelir`) and Asset (`Aktif`), where `x` is the signed value
the user's text parsed to (so `|x|` is the typed magnitude, any typed sign
discarded). -/
theorem c5_group_determines_sign (today dateText grp descText amtText : String)
    (st : AppState) (x : ℚ)
    (hparse : parseAmount (String.mk (pyStrip amtText.toList)) = some x)
    (hio : st.store.ioFail = false) :
    ((grp = "Gider" ∨ grp = "Pasif") →
      (addItem today st dateText grp descText amtText).store.rows =
        st.store.rows ++ [⟨st.store.nextId, parseDate today dateText, grp,
          String.mk (pyStrip descText.toList), -|x|⟩]) ∧
    ((grp = "Gelir" ∨ grp = "Aktif") →
      (addItem today st dateText grp descText amtText).store.rows =
        st.store.rows ++ [⟨st.store.nextId, parseDate today dateText, grp,
          String.mk (pyStrip descText.toList), |x|⟩]) := by
  have hne : pyStrip amtText.toList ≠ [] := by
    intro h
    rw [h] at hparse
    exact Option.noConfusion (parseAmount_empty ▸ hparse)
  constructor <;> intro hgrp
  · unfold addItem
    rw [if_neg hne, hparse]
    have hsig : (grp = "Gider" ∨ grp = "Pasif") = True := eq_true hgrp
    unfold dbInsert
    rw [hio]
    simp only [Bool.false_eq_true, if_false, hsig, if_true]
    cases st.sortState.col <;>
      simp only [store_sortByColumn]
  · unfold addItem
    rw [if_neg hne, hparse]
    have h1 : grp ≠ "Gider" := by
      rcases hgrp with h | h <;> (subst h; decide)
    have h2 : grp ≠ "Pasif" := by
      rcases hgrp with h | h <;> (subst h; decide)
    have hsig : ¬ (grp = "Gider" ∨ grp = "Pasif") := by
      rintro (h | h) <;> [exact h1 h; exact h2 h]
    unfold dbInsert
    rw [hio]
    simp only [Bool.false_eq_true, if_false, hsig, if_false]
    cases st.sortState.col <;>
      simp only [store_sortByColumn]

/-- Witness for C5 at a concrete input: adding `"-7"` to group `Gider`
stores exactly `-|-7| = -7`. -/
theorem c5_group_determines_sign_witness :
    (addItem "2025-03-01" exNoSort "2025-01-02" "Gider" "kira" "-7").store.rows =
      exNoSort.store.rows ++ [⟨exNoSort.store.nextId,
        parseDate "2025-03-01" "2025-01-02", "Gider",
        String.mk (pyStrip "kira".toList), -|(-7 : ℚ)|⟩] :=
  (c5_group_determines_sign "2025-03-01" "2025-01-02" "Gider" "kira" "-7"
    exNoSort (-7) (by decide!) rfl).1 (Or.inl rfl)

/-! ## C6: counterexample (percent sort) -/

/-- **C6** (counterexample): with the percent column actively sorted
(ascending, a fixed point of that sort, mirrored by the store), adding an
income row and undoing it does *not* restore the pre-add row order: the
percent key is computed from the table's group totals, which the added row
changes, so the flip/flip-back re-sorts break the tie `[exP1, exP2]`
(both at 100%) into `[exP2, exP1]`.  Store content is restored. -/
theorem c6_percent_add_undo_not_restored :
    applySort "percent" true exPercent.df = exPercent.df ∧
    (undoOp (addItem "2025-03-01" exPercent "2025-01-02" "Gelir" "ek" "100")).df ≠
      exPercent.df ∧
    (undoOp (addItem "2025-03-01" exPercent "2025-01-02" "Gelir" "ek" "100")).store.rows =
      exPercent.store.rows := by
  decide!

/-! ## C7 -/

/-- Unfolded form of `pushUndo`. -/
theorem pushUndo_def (s : List UndoEntry) (e : UndoEntry) :
    pushUndo s e =
      if UNDO_STACK_MAX < (s ++ [e]).length then (s ++ [e]).drop 1
      else s ++ [e] := rfl

/-- Pushing onto a stack with enough headroom is a plain append. -/
theorem foldl_pushUndo_of_le :
    ∀ (es : List UndoEntry) (acc : List UndoEntry),
      acc.length + es.length ≤ UNDO_STACK_MAX →
      List.foldl pushUndo acc es = acc ++ es := by
  intro es
  induction es with
  | nil => intro acc _; simp
  | cons e es ih =>
    intro acc h
    simp only [List.length_cons] at h
    have hpush : pushUndo acc e = acc ++ [e] := by
      rw [pushUndo_def, if_neg (by simp; omega)]
    rw [List.foldl_cons, hpush, ih (acc ++ [e]) (by simp; omega)]
    simp

/-- **C7**: the undo log is bounded by 100: a push from any in-bound stack
stays in bound (the oldest entry is evicted on overflow), and 101
sequential pushes from the empty log leave exactly the last 100 entries —
the oldest one is gone. -/
theorem c7_undo_log_bounded :
    (∀ (s : List UndoEntry) (e : UndoEntry),
      s.length ≤ UNDO_STACK_MAX → (pushUndo s e).length ≤ UNDO_STACK_MAX) ∧
    (∀ es : List UndoEntry, es.length = UNDO_STACK_MAX + 1 →
      List.foldl pushUndo [] es = es.drop 1 ∧
      (List.foldl pushUndo [] es).length = UNDO_STACK_MAX) := by
  constructor
  · intro s e h
    rw [pushUndo_def]
    split
    · simp only [List.length_drop, List.length_append, List.length_cons,
        List.length_nil]
      omega
    · simp only [List.length_append, List.length_cons, List.length_nil] at *
      omega
  · intro es h
    have hne : es ≠ [] := by
      intro he
      rw [he] at h
      simp [UNDO_STACK_MAX] at h
    have hsplit : es.dropLast ++ [es.getLast hne] = es := List.dropLast_append_getLast hne
    have hlen : es.dropLast.length = UNDO_STACK_MAX := by
      have := List.length_dropLast es
      omega
    have hfold : List.foldl pushUndo [] es =
        pushUndo es.dropLast (es.getLast hne) := by
      conv_lhs => rw [← hsplit]
      rw [List.foldl_append, foldl_pushUndo_of_le es.dropLast [] (by simp [hlen])]
      simp
    have hover : pushUndo es.dropLast (es.getLast hne) = es.drop 1 := by
      rw [pushUndo_def, if_pos (by simp [hlen])]
      conv_rhs => rw [← hsplit]
    constructor
    · rw [hfold, hover]
    · rw [hfold, hover]
      simp only [List.length_drop, h]
      omega

/-- Witness for C7 at concrete inputs: one push onto the empty log stays
in bound, and 101 pushes leave the last 100. -/
theorem c7_undo_log_bounded_witness :
    (pushUndo [] (.add 1)).length ≤ UNDO_STACK_MAX ∧
    List.foldl pushUndo [] (List.replicate 101 (UndoEntry.add 7)) =
      (List.replicate 101 (UndoEntry.add 7)).drop 1 :=
  ⟨c7_undo_log_bounded.1 [] (.add 1) (by decide),
   (c7_undo_log_bounded.2 (List.replicate 101 (UndoEntry.add 7)) (by decide)).1⟩

/-! ## C8 -/

/-- **C8**: if the store insert fails during `add_item`, the whole
operation aborts with the state — table, undo log, store — exactly as
before: the row is appended and the undo entry pushed only after a
successful insert. -/
theorem c8_store_error_aborts_add (today dateText grp descText amtText : String)
    (st : AppState) (h : st.store.ioFail = true) :
    addItem today st dateText grp descText amtText = st := by
  simp only [addItem]
  split
  · rfl
  · cases hp : parseAmount (String.mk (pyStrip amtText.toList)) with
    | none => rfl
    | some rawAmt =>
      simp [dbInsert, h]

/-- Witness for C8: a concrete failing store aborts a concrete add. -/
theorem c8_store_error_aborts_add_witness :
    addItem "2025-03-01" exFailStore "2025-01-02" "Gider" "kira" "5" = exFailStore :=
  c8_store_error_aborts_add "2025-03-01" "2025-01-02" "Gider" "kira" "5"
    exFailStore rfl

/-! ## C9 -/

/-- **C9** (code bug evidence): deleting an id absent from the table of
`exSorted` (actively sorted ascending by amount) leaves store and undo log
untouched and raises nothing, but the table is *not* unchanged: the
re-invoked `sort_by_column` flips the direction and reverses the rows.
With no active sort the operation is a complete no-op, as the claim says. -/
theorem c9_remove_absent_id_reorders :
    (removeSelected exSorted [99]).store.rows = exSorted.store.rows ∧
    (removeSelected exSorted [99]).undoStack = exSorted.undoStack ∧
    (removeSelected exSorted [99]).df = [exR2, exR1] ∧
    (removeSelected exSorted [99]).df ≠ exSorted.df ∧
    removeSelected exNoSort [99] = exNoSort := by
  decide!

/-! ## C10 -/

/-- **C10** (counterexample): a non-empty unparsable date with surrounding
whitespace is returned *stripped*, not verbatim. -/
theorem c10_unparsable_returned_stripped :
    parseDate "2025-10-12" " abc " = "abc" ∧ (" abc " : String) ≠ "abc" := by
  decide!

/-- **C10** (amended): empty or whitespace-only date input normalizes to
today's ISO date rather than the original text; a non-empty input that
every format attempt rejects is returned stripped of surrounding
whitespace (not verbatim). -/
theorem c10_date_normalization (today s : String) :
    (pyStrip s.toList = [] → parseDate today s = today) ∧
    (pyStrip s.toList ≠ [] →
      ((((parseIso (pyStrip s.toList)).or (parseYMD (pyStrip s.toList))).or
          (parseDMYwith '.' (pyStrip s.toList))).or
          (parseDMYwith '/' (pyStrip s.toList))).or
          (parseDMYwith '-' (pyStrip s.toList)) = none →
      parseDate today s = String.mk (pyStrip s.toList)) := by
  constructor
  · intro h
    unfold parseDate
    rw [h]
    simp
  · intro h1 h2
    unfold parseDate
    rw [if_neg h1, h2]

/-- Witness for C10 at concrete inputs: whitespace-only input yields
today, and a non-empty unparsable input yields its stripped text. -/
theorem c10_date_normalization_witness :
    parseDate "2025-10-12" "  " = "2025-10-12" ∧
    parseDate "2025-10-12" " abc " = String.mk (pyStrip " abc ".toList) :=
  ⟨(c10_date_normalization "2025-10-12" "  ").1 (by decide),
   (c10_date_normalization "2025-10-12" " abc ").2 (by decide) (by decide)⟩

/-! ## `splitOnCh` structure lemmas (for C3 and C4) -/

/-- One unfolding step of `splitOnCh`. -/
theorem splitOnCh_cons_eq (c x : Char) (xs : List Char) (h : List Char)
    (t : List (List Char)) (hsp : splitOnCh c xs = h :: t) :
    splitOnCh c (x :: xs) = if x = c then [] :: h :: t else (x :: h) :: t := by
  unfold splitOnCh
  rw [hsp]

/-- `split` never returns an empty list of fields. -/
theorem splitOnCh_ne_nil (c : Char) : ∀ l : List Char, splitOnCh c l ≠ []
  | [] => by simp [splitOnCh]
  | x :: xs => by
    cases hsp : splitOnCh c xs with
    | nil => exact absurd hsp (splitOnCh_ne_nil c xs)
    | cons h t =>
      rw [splitOnCh_cons_eq c x xs h t hsp]
      split <;> simp

/-- A one-field split means the separator does not occur. -/
theorem splitOnCh_eq_singleton (c : Char) :
    ∀ l m : List Char, splitOnCh c l = [m] → l = m ∧ c ∉ m := by
  intro l
  induction l with
  | nil =>
    intro m h
    have hm : m = [] := by
      simpa [splitOnCh] using h.symm
    subst hm
    exact ⟨rfl, List.not_mem_nil c⟩
  | cons x xs ih =>
    intro m h
    cases hsp : splitOnCh c xs with
    | nil => exact absurd hsp (splitOnCh_ne_nil c xs)
    | cons hd t =>
      rw [splitOnCh_cons_eq c x xs hd t hsp] at h
      by_cases hx : x = c
      · rw [if_pos hx] at h
        exact absurd (List.cons_eq_cons.mp h).2 (List.cons_ne_nil hd t)
      · rw [if_neg hx] at h
        obtain ⟨h1, h2⟩ := List.cons_eq_cons.mp h
        obtain ⟨hxs, hc⟩ := ih hd (by rw [hsp, h2])
        subst h1
        refine ⟨by rw [hxs], ?_⟩
        simp only [List.mem_cons, not_or]
        exact ⟨fun hh => hx hh.symm, hc⟩

/-- A two-field split decomposes the list around a unique separator. -/
theorem splitOnCh_eq_pair (c : Char) :
    ∀ l p q : List Char, splitOnCh c l = [p, q] →
      l = p ++ c :: q ∧ c ∉ p ∧ c ∉ q := by
  intro l
  induction l with
  | nil =>
    intro p q h
    simp [splitOnCh] at h
  | cons x xs ih =>
    intro p q h
    cases hsp : splitOnCh c xs with
    | nil => exact absurd hsp (splitOnCh_ne_nil c xs)
    | cons hd t =>
      rw [splitOnCh_cons_eq c x xs hd t hsp] at h
      by_cases hx : x = c
      · rw [if_pos hx] at h
        obtain ⟨h1, h2⟩ := List.cons_eq_cons.mp h
        obtain ⟨h3, h4⟩ := List.cons_eq_cons.mp h2
        obtain ⟨hxs, hcq⟩ := splitOnCh_eq_singleton c xs q (by rw [hsp, h3, h4])
        subst h1
        refine ⟨?_, List.not_mem_nil c, hcq⟩
        rw [hxs, hx]
        rfl
      · rw [if_neg hx] at h
        obtain ⟨h1, h2⟩ := List.cons_eq_cons.mp h
        obtain ⟨hxs, hcp, hcq⟩ := ih hd q (by rw [hsp, h2])
        subst h1
        refine ⟨by rw [hxs]; simp, ?_, hcq⟩
        simp only [List.mem_cons, not_or]
        exact ⟨fun hh => hx hh.symm, hcp⟩

/-- Joining the fields of a split = deleting the separator. -/
theorem flatten_splitOnCh (c : Char) : ∀ l : List Char,
    (splitOnCh c l).flatten = l.filter (fun y => y != c) := by
  intro l
  induction l with
  | nil => simp [splitOnCh]
  | cons x xs ih =>
    cases hsp : splitOnCh c xs with
    | nil => exact absurd hsp (splitOnCh_ne_nil c xs)
    | cons hd t =>
      rw [splitOnCh_cons_eq c x xs hd t hsp]
      rw [hsp, List.flatten_cons] at ih
      by_cases hx : x = c
      · rw [if_pos hx]
        rw [List.flatten_cons, List.flatten_cons, List.nil_append,
          List.filter_cons, if_neg (by simp [hx]), ih]
      · rw [if_neg hx]
        rw [List.flatten_cons, List.filter_cons, if_pos (by simp [hx]),
          List.cons_append, ih]

/-- The number of fields of a split is one more than the separator
count. -/
theorem length_splitOnCh (c : Char) : ∀ l : List Char,
    (splitOnCh c l).length = l.count c + 1 := by
  intro l
  induction l with
  | nil => simp [splitOnCh]
  | cons x xs ih =>
    cases hsp : splitOnCh c xs with
    | nil => exact absurd hsp (splitOnCh_ne_nil c xs)
    | cons hd t =>
      rw [splitOnCh_cons_eq c x xs hd t hsp]
      rw [hsp] at ih
      by_cases hx : x = c
      · rw [if_pos hx]
        simp only [List.length_cons] at ih ⊢
        rw [List.count_cons]
        simp [hx, ih]
      · rw [if_neg hx]
        simp only [List.length_cons] at ih ⊢
        rw [List.count_cons]
        have hne : ¬ ((c == x) = true) := by
          simp only [beq_iff_eq]
          exact fun hh => hx hh.symm
        simp [hne, ih, hx]

/-- `takeWhile` stops exactly at the first failing element. -/
theorem takeWhile_append_cons (p : Char → Bool) (x : Char) (l₂ : List Char) :
    ∀ l₁ : List Char, (∀ y ∈ l₁, p y = true) → p x = false →
      (l₁ ++ x :: l₂).takeWhile p = l₁ := by
  intro l₁
  induction l₁ with
  | nil =>
    intro _ hx
    simp [List.takeWhile_cons, hx]
  | cons y ys ih =>
    intro hall hx
    rw [List.cons_append, List.takeWhile_cons,
      if_pos (hall y (List.mem_cons_self y ys)),
      ih (fun z hz => hall z (List.mem_cons_of_mem _ hz)) hx]

/-! ## Stable-sort lemmas

`sortOn` (a stable sort by key) commutes with `filter`, fixes sorted
lists, and — the fact behind add/undo order restoration — sorting a
sorted list in the opposite direction and back returns it unchanged. -/

/-- A list sorted for the key relation stays put under `sortOn`. -/
theorem sortOn_of_sorted {α K : Type} [LinearOrder K] {k : α → K} {a : Bool}
    {l : List α} (h : List.Sorted (keyRel k a) l) : sortOn k a l = l :=
  h.insertionSort_eq

/-- The output of `sortOn` is sorted for the key relation. -/
theorem sortOn_sorted {α K : Type} [LinearOrder K] (k : α → K) (a : Bool)
    (l : List α) : List.Sorted (keyRel k a) (sortOn k a l) :=
  List.sorted_insertionSort _ l

/-- `sortOn` permutes its input. -/
theorem sortOn_perm {α K : Type} [LinearOrder K] (k : α → K) (a : Bool)
    (l : List α) : List.Perm (sortOn k a l) l :=
  List.perm_insertionSort _ l

/-- Filtering an `orderedInsert` into a sorted list inserts into the
filtered list (or drops the element). -/
theorem filter_orderedInsert {α : Type} (r : α → α → Prop) [DecidableRel r]
    [IsTrans α r] (p : α → Bool) (a : α) :
    ∀ l : List α, List.Sorted r l →
      (List.orderedInsert r a l).filter p =
        if p a then List.orderedInsert r a (l.filter p) else l.filter p := by
  intro l
  induction l with
  | nil =>
    intro _
    by_cases hpa : p a <;> simp [List.orderedInsert, List.filter_cons, hpa]
  | cons b t ih =>
    intro hs
    by_cases hr : r a b
    · rw [List.orderedInsert, if_pos hr]
      by_cases hpa : p a
      · by_cases hpb : p b
        · simp [List.filter_cons, hpa, hpb, List.orderedInsert, hr]
        · have hsub : ∀ c ∈ t.filter p, r a c := by
            intro c hc
            exact IsTrans.trans a b c hr
              (List.rel_of_sorted_cons hs c (List.mem_of_mem_filter hc))
          cases hft : t.filter p with
          | nil => simp [List.filter_cons, hpa, hpb, hft, List.orderedInsert]
          | cons c rest =>
            have hac : r a c := hsub c (by rw [hft]; exact List.mem_cons_self c rest)
            simp [List.filter_cons, hpa, hpb, hft, List.orderedInsert, hac]
      · simp [List.filter_cons, hpa]
    · rw [List.orderedInsert, if_neg hr]
      have ih' := ih (List.Sorted.of_cons hs)
      by_cases hpb : p b
      · by_cases hpa : p a <;>
          simp [List.filter_cons, hpb, hpa, ih', List.orderedInsert, hr]
      · by_cases hpa : p a <;> simp [List.filter_cons, hpb, hpa, ih']

/-- A stable sort commutes with filtering. -/
theorem filter_sortOn {α K : Type} [LinearOrder K] (k : α → K) (a : Bool)
    (p : α → Bool) : ∀ l : List α,
    (sortOn k a l).filter p = sortOn k a (l.filter p) := by
  intro l
  induction l with
  | nil => rfl
  | cons x t ih =>
    simp only [sortOn, List.insertionSort] at ih ⊢
    rw [filter_orderedInsert _ p x _ (List.sorted_insertionSort _ t), ih,
      List.filter_cons]
    by_cases hpx : p x
    · rw [if_pos hpx, if_pos hpx]
      rfl
    · rw [if_neg hpx, if_neg hpx]

/-- A list whose elements all share one key value is sorted either way. -/
theorem sorted_keyRel_of_const {α K : Type} [LinearOrder K] (k : α → K)
    (a : Bool) (q : K) : ∀ m : List α, (∀ x ∈ m, k x = q) →
    List.Sorted (keyRel k a) m := by
  intro m
  induction m with
  | nil => intro _; exact List.sorted_nil
  | cons x t ih =>
    intro h
    rw [List.sorted_cons]
    refine ⟨fun b hb => ?_, ih fun y hy => h y (List.mem_cons_of_mem _ hy)⟩
    have hx := h x (List.mem_cons_self x t)
    have hbq := h b (List.mem_cons_of_mem _ hb)
    cases a <;> simp [keyRel, hx, hbq]

/-- Stable-sort uniqueness: two lists sorted for the same key relation
whose key-classes agree (as subsequences) are equal. -/
theorem eq_of_sorted_of_filter_eq {α K : Type} [LinearOrder K] (k : α → K)
    (a : Bool) :
    ∀ l₂ l₃ : List α, List.Sorted (keyRel k a) l₂ →
      List.Sorted (keyRel k a) l₃ →
      (∀ q : K, l₂.filter (fun x => k x = q) = l₃.filter (fun x => k x = q)) →
      l₂ = l₃ := by
  intro l₂
  induction l₂ with
  | nil =>
    intro l₃ _ _ hf
    cases l₃ with
    | nil => rfl
    | cons b t =>
      exfalso
      have h := hf (k b)
      simp [List.filter_cons] at h
  | cons x t₂ ih =>
    intro l₃ h₂ h₃ hf
    cases l₃ with
    | nil =>
      exfalso
      have h := hf (k x)
      simp [List.filter_cons] at h
    | cons b t₃ =>
      have hkey : k b = k x := by
        by_contra hkb
        have hfx := hf (k x)
        rw [List.filter_cons, List.filter_cons,
          if_pos (by simp), if_neg (by simp [hkb])] at hfx
        have hxt₃ : x ∈ t₃ := by
          have : x ∈ t₃.filter (fun y => decide (k y = k x)) := by
            rw [← hfx]
            exact List.mem_cons_self _ _
          exact List.mem_of_mem_filter this
        have hbx : keyRel k a b x := List.rel_of_sorted_cons h₃ x hxt₃
        have hfb := hf (k b)
        rw [List.filter_cons, List.filter_cons,
          if_neg (by simp only [decide_eq_true_eq]; exact fun h => hkb h.symm),
          if_pos (by simp)] at hfb
        have hbt₂ : b ∈ t₂ := by
          have : b ∈ t₂.filter (fun y => decide (k y = k b)) := by
            rw [hfb]
            exact List.mem_cons_self _ _
          exact List.mem_of_mem_filter this
        have hxb : keyRel k a x b := List.rel_of_sorted_cons h₂ b hbt₂
        apply hkb
        cases a with
        | true => exact le_antisymm hbx hxb
        | false => exact le_antisymm hxb hbx
      have hxb : x = b := by
        have hfx := hf (k x)
        rw [List.filter_cons, List.filter_cons,
          if_pos (by simp), if_pos (by simp [hkey])] at hfx
        exact (List.cons_eq_cons.mp hfx).1
      subst hxb
      have htail : t₂ = t₃ := by
        apply ih t₃ (List.Sorted.of_cons h₂) (List.Sorted.of_cons h₃)
        intro q
        have hq := hf q
        rw [List.filter_cons, List.filter_cons] at hq
        by_cases hkq : k x = q
        · rw [if_pos (by simp [hkq]), if_pos (by simp [hkq])] at hq
          exact (List.cons_eq_cons.mp hq).2
        · rwa [if_neg (by simp [hkq]), if_neg (by simp [hkq])] at hq
      rw [htail]

/-- Sorting a sorted list in the opposite direction and then back restores
it: the opposite-direction stable sort keeps each key-class in order, and
the stable re-sort then reproduces the original. -/
theorem sortOn_flip_of_sorted {α K : Type} [LinearOrder K] (k : α → K)
    (a : Bool) (l : List α) (hl : List.Sorted (keyRel k a) l) :
    sortOn k a (sortOn k (!a) l) = l := by
  apply eq_of_sorted_of_filter_eq k a _ _ (sortOn_sorted k a _) hl
  intro q
  rw [filter_sortOn, filter_sortOn]
  have hconst : ∀ y ∈ l.filter (fun x => k x = q), k y = q := by
    intro y hy
    simpa using List.of_mem_filter hy
  rw [sortOn_of_sorted (sorted_keyRel_of_const k (!a) q _ hconst),
    sortOn_of_sorted (sorted_keyRel_of_const k a q _ hconst)]

/-- The round trip behind add/undo: append an element the filter rejects,
stable-sort in the flipped direction, remove it again, re-sort in the
original direction — the original (sorted) list comes back. -/
theorem sortOn_roundtrip {α K : Type} [LinearOrder K] (k : α → K) (a : Bool)
    (l : List α) (x : α) (p : α → Bool)
    (hl : sortOn k a l = l) (hp : ∀ y ∈ l, p y = true) (hpx : p x = false) :
    sortOn k a ((sortOn k (!a) (l ++ [x])).filter p) = l := by
  have hsorted : List.Sorted (keyRel k a) l := by
    rw [← hl]
    exact sortOn_sorted k a l
  rw [filter_sortOn, List.filter_append]
  have h1 : l.filter p = l := List.filter_eq_self.mpr hp
  have h2 : [x].filter p = [] := by simp [hpx]
  rw [h1, h2, List.append_nil]
  exact sortOn_flip_of_sorted k a l hsorted

/-! ## Per-column sort facts -/

/-- Group totals only depend on the table as a multiset. -/
theorem totalFor_congr (g : String) {l l' : List Row} (h : List.Perm l l') :
    totalFor g l = totalFor g l' :=
  List.Perm.sum_eq (List.Perm.map _ (List.Perm.filter _ h))

/-- The percent key only depends on the table as a multiset. -/
theorem pctKey_congr {l l' : List Row} (h : List.Perm l l') :
    pctKey l = pctKey l' := by
  funext r
  unfold pctKey
  rw [totalFor_congr "Gelir" h, totalFor_congr "Gider" h,
    totalFor_congr "Aktif" h, totalFor_congr "Pasif" h]

/-- `applySort` at the `date` column. -/
theorem applySort_date (b : Bool) (l : List Row) :
    applySort "date" b l = sortOn (fun r => dateKeyNat r.date) b l := rfl

/-- `applySort` at the `group` column. -/
theorem applySort_group (b : Bool) (l : List Row) :
    applySort "group" b l = sortOn (fun r => grpKey r.group) b l := rfl

/-- `applySort` at the `amount` column. -/
theorem applySort_amount (b : Bool) (l : List Row) :
    applySort "amount" b l = sortOn Row.amount b l := rfl

/-- `applySort` at the `description` column. -/
theorem applySort_description (b : Bool) (l : List Row) :
    applySort "description" b l = sortOn (fun r => lowerKey r.description) b l := rfl

/-- `applySort` at the `percent` column. -/
theorem applySort_percent (b : Bool) (l : List Row) :
    applySort "percent" b l = sortOn (pctKey l) b l := rfl

/-- A column that is not in the table raises inside pandas; no sort
happens. -/
theorem applySort_of_invalid (c : String) (hc : c ∉ treeColumns) (b : Bool)
    (l : List Row) : applySort c b l = l := by
  simp only [treeColumns, List.mem_cons, List.not_mem_nil, or_false,
    not_or] at hc
  obtain ⟨h1, h2, h3, h4, h5⟩ := hc
  unfold applySort
  rw [if_neg h2, if_neg h4, if_neg h1, if_neg h5, if_neg h3]

/-- `applySort` permutes the table. -/
theorem applySort_perm (c : String) (b : Bool) (l : List Row) :
    List.Perm (applySort c b l) l := by
  unfold applySort
  split_ifs <;> first
    | exact List.perm_insertionSort _ _
    | exact List.Perm.refl _

/-! ## C2: amended -/

/-- **C2** (amended): re-invoking `sortBy` flips the direction, so two
invocations differ from one (see the counterexample); what is idempotent
is the sort itself at a fixed column and direction: applying it twice
yields the same order as applying it once, for every column and both
directions (for `percent` because the totals that define the key are
permutation-invariant). -/
theorem c2_applySort_idempotent (col : String) (asc : Bool) (l : List Row) :
    applySort col asc (applySort col asc l) = applySort col asc l := by
  by_cases h1 : col = "group"
  · subst h1
    rw [applySort_group, applySort_group, sortOn_of_sorted (sortOn_sorted _ _ _)]
  by_cases h2 : col = "amount"
  · subst h2
    rw [applySort_amount, applySort_amount, sortOn_of_sorted (sortOn_sorted _ _ _)]
  by_cases h3 : col = "date"
  · subst h3
    rw [applySort_date, applySort_date, sortOn_of_sorted (sortOn_sorted _ _ _)]
  by_cases h4 : col = "percent"
  · subst h4
    rw [applySort_percent, applySort_percent,
      pctKey_congr (sortOn_perm (pctKey l) asc l),
      sortOn_of_sorted (sortOn_sorted _ _ _)]
  by_cases h5 : col = "description"
  · subst h5
    rw [applySort_description, applySort_description,
      sortOn_of_sorted (sortOn_sorted _ _ _)]
  have hc : col ∉ treeColumns := by
    simp [treeColumns, h1, h2, h3, h4, h5]
  rw [applySort_of_invalid col hc, applySort_of_invalid col hc]

/-! ## C6: amended -/

/-- The entry just pushed is the one `pop()` returns, also across an
eviction. -/
theorem getLast?_pushUndo (s : List UndoEntry) (e : UndoEntry) :
    (pushUndo s e).getLast? = some e := by
  rw [pushUndo_def]
  split
  · rename_i hlen
    rw [List.drop_append_of_le_length
      (by simp only [List.length_append, List.length_cons, List.length_nil,
        UNDO_STACK_MAX] at hlen ⊢; omega)]
    exact List.getLast?_concat _
  · exact List.getLast?_concat _

/-- Filtering by "id different from a fresh id" keeps every row. -/
theorem filter_id_ne_of_fresh (l : List Row) (nid : ℕ)
    (h : ∀ r ∈ l, r.id ≠ nid) :
    l.filter (fun r => !(r.id == nid)) = l := by
  apply List.filter_eq_self.mpr
  intro r hr
  simpa using h r hr

/-- `sort_by_column` on a real column, unfolded: toggle-or-reset the
direction, stably re-sort, record the new sort state. -/
theorem sortByColumn_valid (st : AppState) (c : String) (hc : c ∈ treeColumns) :
    sortByColumn st c =
      ⟨applySort c (if st.sortState.col = some c then !st.sortState.asc else true) st.df,
        ⟨some c, if st.sortState.col = some c then !st.sortState.asc else true⟩,
        st.undoStack, st.store⟩ := by
  unfold sortByColumn
  rw [if_pos hc]

/-- `sort_by_column` on an invalid column raises inside pandas and changes
nothing. -/
theorem sortByColumn_invalid (st : AppState) (c : String)
    (hc : c ∉ treeColumns) : sortByColumn st c = st := by
  unfold sortByColumn
  rw [if_neg hc]

/-- A successful `add_item` in closed form: the parsed, signed row is
appended to table and store, the undo entry pushed, and the active sort
re-invoked. -/
theorem addItem_eq (today dateText grp descText amtText : String)
    (st : AppState) (x : ℚ)
    (hparse : parseAmount (String.mk (pyStrip amtText.toList)) = some x)
    (hio : st.store.ioFail = false) :
    addItem today st dateText grp descText amtText =
      match st.sortState.col with
      | some c => sortByColumn
          ⟨st.df ++ [addedRow today dateText grp descText st.store.nextId x],
            st.sortState, pushUndo st.undoStack (.add st.store.nextId),
            ⟨st.store.rows ++ [addedRow today dateText grp descText st.store.nextId x],
              st.store.nextId + 1, st.store.ioFail⟩⟩ c
      | none =>
          ⟨st.df ++ [addedRow today dateText grp descText st.store.nextId x],
            st.sortState, pushUndo st.undoStack (.add st.store.nextId),
            ⟨st.store.rows ++ [addedRow today dateText grp descText st.store.nextId x],
              st.store.nextId + 1, st.store.ioFail⟩⟩ := by
  have hne : pyStrip amtText.toList ≠ [] := by
    intro h
    rw [h] at hparse
    exact Option.noConfusion (parseAmount_empty ▸ hparse)
  unfold addItem
  rw [if_neg hne, hparse]
  unfold dbInsert
  rw [hio]
  rfl

/-- `undo` of an `add` entry in closed form. -/
theorem undoOp_add (st : AppState) (rid : ℕ)
    (h : st.undoStack.getLast? = some (.add rid)) :
    undoOp st =
      match st.sortState.col with
      | some c => sortByColumn
          ⟨st.df.filter (fun r => !(r.id == rid)), st.sortState,
            st.undoStack.dropLast, dbDeleteIds st.store [rid]⟩ c
      | none =>
          ⟨st.df.filter (fun r => !(r.id == rid)), st.sortState,
            st.undoStack.dropLast, dbDeleteIds st.store [rid]⟩ := by
  unfold undoOp
  rw [h]

/-- Deleting the freshly assigned id from the store that just received it
restores the original rows. -/
theorem dbDeleteIds_fresh_append (rows : List Row) (row : Row) (nid cnt : ℕ)
    (io : Bool) (hrow : row.id = nid) (h : ∀ r ∈ rows, r.id ≠ nid) :
    dbDeleteIds ⟨rows ++ [row], cnt, io⟩ [nid] = ⟨rows, cnt, io⟩ := by
  unfold dbDeleteIds
  rw [if_neg (by simp)]
  simp only [StoreState.mk.injEq, and_true]
  rw [List.filter_append]
  have h1 : rows.filter (fun r => !([nid].contains r.id)) = rows := by
    apply List.filter_eq_self.mpr
    intro r hr
    simpa using h r hr
  have h2 : [row].filter (fun r => !([nid].contains r.id)) = [] := by
    simp [hrow]
  rw [h1, h2, List.append_nil]

/-- **C6** (amended): a successful `add` followed by `undo` restores the
Store rows exactly and the in-memory table as a multiset (ids preserved —
no reassignment happens on this path); the exact pre-add row *order* is
restored provided the active sort column is not `percent` (in particular
with no active sort, or any of the four value-independent columns).
Hypotheses: the table is a fixed point of the active sort (the
application's standing invariant), and neither table nor store already
uses the store's next fresh id. -/
theorem c6_add_undo_roundtrip (today dateText grp descText amtText : String)
    (st : AppState) (x : ℚ)
    (hsort : ∀ c ∈ treeColumns, st.sortState.col = some c →
      applySort c st.sortState.asc st.df = st.df)
    (hfreshDf : ∀ r ∈ st.df, r.id ≠ st.store.nextId)
    (hfreshStore : ∀ r ∈ st.store.rows, r.id ≠ st.store.nextId)
    (hparse : parseAmount (String.mk (pyStrip amtText.toList)) = some x)
    (hio : st.store.ioFail = false) :
    (undoOp (addItem today st dateText grp descText amtText)).store.rows =
      st.store.rows ∧
    List.Perm (undoOp (addItem today st dateText grp descText amtText)).df
      st.df ∧
    (st.sortState.col ≠ some "percent" →
      (undoOp (addItem today st dateText grp descText amtText)).df = st.df) := by
  rw [addItem_eq today dateText grp descText amtText st x hparse hio]
  have hrowid : (addedRow today dateText grp descText st.store.nextId x).id =
    st.store.nextId := rfl
  have hdfFilter :
      (st.df ++ [addedRow today dateText grp descText st.store.nextId x]).filter
        (fun r => !(r.id == st.store.nextId)) = st.df := by
    rw [List.filter_append, filter_id_ne_of_fresh st.df _ hfreshDf]
    simp [hrowid]
  cases hc : st.sortState.col with
  | none =>
    dsimp only
    rw [undoOp_add _ st.store.nextId (getLast?_pushUndo _ _), hc]
    dsimp only
    rw [dbDeleteIds_fresh_append _ _ _ _ _ hrowid hfreshStore, hdfFilter]
    exact ⟨by trivial, List.Perm.refl _, fun _ => by trivial⟩
  | some c =>
    dsimp only
    by_cases hval : c ∈ treeColumns
    · rw [sortByColumn_valid _ _ hval]
      dsimp only
      rw [if_pos hc]
      rw [undoOp_add _ st.store.nextId (getLast?_pushUndo _ _)]
      dsimp only
      rw [dbDeleteIds_fresh_append _ _ _ _ _ hrowid hfreshStore]
      rw [sortByColumn_valid _ _ hval]
      dsimp only
      rw [if_pos rfl]
      simp only [Bool.not_not]
      refine ⟨by trivial, ?_, ?_⟩
      · -- multiset restoration, any column
        refine (applySort_perm _ _ _).trans ?_
        have hinner := applySort_perm c (!st.sortState.asc)
          (st.df ++ [addedRow today dateText grp descText st.store.nextId x])
        refine (List.Perm.filter _ hinner).trans ?_
        rw [hdfFilter]
      · -- exact order, non-percent column
        intro hnp
        have hcne : c ≠ "percent" := by
          intro hcp
          apply hnp
          rw [hcp]
        have hsort' := hsort c hval hc
        have hfilterTrue : ∀ y ∈ st.df, (!(y.id == st.store.nextId)) = true := by
          intro y hy
          simpa using hfreshDf y hy
        have hfilterFalse :
            (!((addedRow today dateText grp descText st.store.nextId x).id ==
              st.store.nextId)) = false := by
          simp [hrowid]
        simp only [treeColumns, List.mem_cons, List.not_mem_nil, or_false] at hval
        rcases hval with h | h | h | h | h
        · subst h
          rw [applySort_date] at hsort' ⊢
          rw [applySort_date]
          exact sortOn_roundtrip _ _ _ _ _ hsort' hfilterTrue hfilterFalse
        · subst h
          rw [applySort_group] at hsort' ⊢
          rw [applySort_group]
          exact sortOn_roundtrip _ _ _ _ _ hsort' hfilterTrue hfilterFalse
        · subst h
          rw [applySort_description] at hsort' ⊢
          rw [applySort_description]
          exact sortOn_roundtrip _ _ _ _ _ hsort' hfilterTrue hfilterFalse
        · subst h
          rw [applySort_amount] at hsort' ⊢
          rw [applySort_amount]
          exact sortOn_roundtrip _ _ _ _ _ hsort' hfilterTrue hfilterFalse
        · exact absurd h hcne
    · rw [sortByColumn_invalid _ _ hval]
      rw [undoOp_add _ st.store.nextId (getLast?_pushUndo _ _), hc]
      dsimp only
      rw [dbDeleteIds_fresh_append _ _ _ _ _ hrowid hfreshStore, hdfFilter]
      rw [sortByColumn_invalid _ _ hval]
      exact ⟨rfl, List.Perm.refl _, fun _ => rfl⟩

/-- **C4** (amended): on a body containing `'.'` but no `','`, the dots
are stripped as thousands separators exactly when the body has two or more
dots, or when exactly 3 digits follow the single dot and at most 3
characters precede it; otherwise the single dot is kept as the decimal
separator.  (The claimed rule — one group of 1–3 digits after the dot —
does not match the code: it requires exactly 3.) -/
theorem c4_dot_only_rule (b : List Char) (h1 : '.' ∈ b) (h2 : ',' ∉ b) :
    normalizeSeparators b =
      if 2 ≤ b.count '.' ∨
          ((b.reverse.takeWhile (fun y => y != '.')).length = 3 ∧
            b.length - (b.reverse.takeWhile (fun y => y != '.')).length - 1 ≤ 3)
        then b.filter (fun y => y != '.')
        else b := by
  unfold normalizeSeparators
  rw [if_neg (by simp [h2]), if_neg (by simp [h2]), if_pos ⟨h1, h2⟩]
  by_cases hn : 2 ≤ b.count '.'
  · rw [if_pos (by rw [length_splitOnCh]; omega), flatten_splitOnCh,
      if_pos (Or.inl hn)]
  · have hn1 : b.count '.' = 1 := by
      have hpos : 0 < b.count '.' := List.count_pos_iff.mpr h1
      omega
    have hlen2 : (splitOnCh '.' b).length = 2 := by
      rw [length_splitOnCh, hn1]
    obtain ⟨ip, fp, hparts⟩ := List.length_eq_two.mp hlen2
    obtain ⟨hb, hip, hfp⟩ := splitOnCh_eq_pair '.' b ip fp hparts
    rw [if_neg (by rw [length_splitOnCh, hn1]; omega), hparts]
    dsimp only
    have htrail : b.reverse.takeWhile (fun y => y != '.') = fp.reverse := by
      rw [hb, List.reverse_append, List.reverse_cons, List.append_assoc,
        List.singleton_append]
      exact takeWhile_append_cons _ _ _ fp.reverse
        (fun y hy => by
          simp only [bne_iff_ne, ne_eq, decide_eq_true_eq]
          exact fun hy' => hfp (hy' ▸ List.mem_reverse.mp hy))
        (by simp)
    have hlenb : b.length = ip.length + 1 + fp.length := by
      rw [hb]
      simp only [List.length_append, List.length_cons]
      omega
    rw [htrail, List.length_reverse, hlenb]
    have harith : ip.length + 1 + fp.length - fp.length - 1 = ip.length := by
      omega
    rw [harith]
    by_cases hcase : fp.length = 3 ∧ ip.length ≤ 3
    · rw [if_pos hcase, if_pos (Or.inr hcase)]
      rw [hb, List.filter_append, List.filter_cons]
      rw [if_neg (by simp)]
      rw [List.filter_eq_self.mpr (fun y hy => by
          simp only [bne_iff_ne, ne_eq, decide_eq_true_eq]
          exact fun hy' => hip (hy' ▸ hy)),
        List.filter_eq_self.mpr (fun y hy => by
          simp only [bne_iff_ne, ne_eq, decide_eq_true_eq]
          exact fun hy' => hfp (hy' ▸ hy))]
    · rw [if_neg hcase, if_neg (by
        rintro (h | h)
        · exact hn h
        · exact hcase h)]

/-! ## Digit rendering lemmas (for C3) -/

/-- `dCh` always yields a digit character. -/
theorem isDigitCh_dCh (d : ℕ) : isDigitCh (dCh d) = true := by
  unfold dCh
  split <;> decide

/-- `dCh` inverts to the digit value below 10. -/
theorem digitVal_dCh (d : ℕ) (h : d < 10) : digitVal (dCh d) = d := by
  interval_cases d <;> decide

/-- A digit character is not one of the separator/sign/space characters. -/
theorem isDigitCh_props (c : Char) (h : isDigitCh c = true) :
    c ≠ '.' ∧ c ≠ ',' ∧ c ≠ '-' ∧ c ≠ '+' ∧ c ≠ ' ' ∧ c ≠ apoCh ∧
      isSpaceCh c = false := by
  have hne : ∀ b : Char, isDigitCh b = false → c ≠ b := by
    intro b hb hcb
    rw [hcb, hb] at h
    exact Bool.noConfusion h
  refine ⟨hne _ (by decide), hne _ (by decide), hne _ (by decide),
    hne _ (by decide), hne _ (by decide), hne _ (by decide), ?_⟩
  have h1 := hne '\t' (by decide)
  have h2 := hne '\n' (by decide)
  have h3 := hne '\r' (by decide)
  have h4 := hne '\x0b' (by decide)
  have h5 := hne '\x0c' (by decide)
  have h6 := hne ' ' (by decide)
  unfold isSpaceCh
  simp [h1, h2, h3, h4, h5, h6]

/-- Appending one digit multiplies the accumulated value by ten. -/
theorem digitsToNat_append (l : List Char) (c : Char) :
    digitsToNat (l ++ [c]) = 10 * digitsToNat l + digitVal c := by
  unfold digitsToNat
  rw [List.foldl_append]
  rfl

/-- Leading zeros do not change the value. -/
theorem digitsToNat_replicate_zero (m : ℕ) (l : List Char) :
    digitsToNat (List.replicate m '0' ++ l) = digitsToNat l := by
  induction m with
  | zero => rfl
  | succ k ih =>
    rw [List.replicate_succ, List.cons_append]
    unfold digitsToNat at ih ⊢
    simpa using ih

/-- All characters of `natDigitsAux` are digits. -/
theorem natDigitsAux_digits : ∀ (fuel n : ℕ), ∀ c ∈ natDigitsAux fuel n,
    isDigitCh c = true := by
  intro fuel
  induction fuel with
  | zero => intro n c hc; simp [natDigitsAux] at hc
  | succ f ih =>
    intro n c hc
    unfold natDigitsAux at hc
    split at hc
    · simp at hc
    · rcases List.mem_append.mp hc with h | h
      · exact ih _ c h
      · simp only [List.mem_singleton] at h
        exact h ▸ isDigitCh_dCh _

/-- With enough fuel, rendering then reading yields the number back. -/
theorem digitsToNat_natDigitsAux : ∀ (fuel n : ℕ), n ≤ fuel →
    digitsToNat (natDigitsAux fuel n) = n := by
  intro fuel
  induction fuel with
  | zero =>
    intro n h
    interval_cases n
    rfl
  | succ f ih =>
    intro n h
    unfold natDigitsAux
    split
    · rename_i h0
      simp [digitsToNat, h0]
    · rename_i h0
      rw [digitsToNat_append, ih (n / 10) (by omega),
        digitVal_dCh _ (Nat.mod_lt _ (by omega))]
      omega

/-- The rendering never exceeds the digit count of the bound. -/
theorem natDigitsAux_length_le : ∀ (fuel n k : ℕ), n < 10 ^ k →
    (natDigitsAux fuel n).length ≤ k := by
  intro fuel
  induction fuel with
  | zero => intro n k _; simp [natDigitsAux]
  | succ f ih =>
    intro n k hk
    unfold natDigitsAux
    split
    · simp
    · rename_i h0
      have hk1 : 1 ≤ k := by
        by_contra hk0
        interval_cases k
        omega
      have hdiv : n / 10 < 10 ^ (k - 1) := by
        rw [Nat.div_lt_iff_lt_mul (by omega)]
        calc n < 10 ^ k := hk
          _ = 10 ^ (k - 1) * 10 := by
            rw [← pow_succ]
            congr 1
            omega
      have := ih (n / 10) (k - 1) hdiv
      simp only [List.length_append, List.length_cons, List.length_nil]
      omega

/-- `natRender` is never empty. -/
theorem natRender_ne_nil (n : ℕ) : natRender n ≠ [] := by
  unfold natRender
  split
  · simp
  · rename_i h0
    unfold natDigitsAux
    rw [if_neg h0]
    simp

/-- All characters of `natRender` are digits. -/
theorem natRender_digits (n : ℕ) : ∀ c ∈ natRender n, isDigitCh c = true := by
  unfold natRender
  split
  · intro c hc
    simp only [List.mem_singleton] at hc
    subst hc
    decide
  · exact natDigitsAux_digits _ _

/-- Reading back a rendering yields the number. -/
theorem digitsToNat_natRender (n : ℕ) : digitsToNat (natRender n) = n := by
  unfold natRender
  split
  · rename_i h0
    subst h0
    rfl
  · exact digitsToNat_natDigitsAux _ _ (by omega)

/-- Length bound for `natRender`. -/
theorem natRender_length_le (n k : ℕ) (hk : 1 ≤ k) (h : n < 10 ^ k) :
    (natRender n).length ≤ k := by
  unfold natRender
  split
  · simpa using hk
  · exact natDigitsAux_length_le _ _ _ h

/-! ## Thousands-grouping lemmas (for C3) -/

/-- Grouping is unchanged by spare fuel on short lists. -/
theorem groupDigitsAux_of_le (fuel : ℕ) (l : List Char) (h : l.length ≤ 3) :
    groupDigitsAux fuel l = l := by
  cases fuel with
  | zero => rfl
  | succ f =>
    unfold groupDigitsAux
    rw [if_pos h]

/-- Short lists stay ungrouped. -/
theorem groupDigits_of_le (l : List Char) (h : l.length ≤ 3) :
    groupDigits l = l :=
  groupDigitsAux_of_le _ _ h

/-- Extra fuel beyond the list length is irrelevant. -/
theorem groupDigitsAux_add : ∀ (fuel : ℕ) (l : List Char), l.length ≤ fuel →
    ∀ extra, groupDigitsAux (fuel + extra) l = groupDigitsAux fuel l := by
  intro fuel
  induction fuel with
  | zero =>
    intro l h extra
    have hl : l = [] := List.length_eq_zero.mp (by omega)
    subst hl
    cases extra with
    | zero => rfl
    | succ e =>
      show groupDigitsAux (e + 1) [] = _
      unfold groupDigitsAux
      rw [if_pos (by simp)]
  | succ f ih =>
    intro l h extra
    have h1 : f + 1 + extra = f + extra + 1 := by omega
    rw [h1]
    show groupDigitsAux (f + extra + 1) l = groupDigitsAux (f + 1) l
    unfold groupDigitsAux
    by_cases h3 : l.length ≤ 3
    · rw [if_pos h3, if_pos h3]
    · rw [if_neg h3, if_neg h3]
      simp only [List.append_cancel_left_eq, List.cons.injEq, true_and]
      exact ih _ (by simp only [List.length_drop]; omega) extra

/-- Any sufficient fuel computes `groupDigits`. -/
theorem groupDigitsAux_eq_groupDigits (fuel : ℕ) (l : List Char)
    (h : l.length ≤ fuel) : groupDigitsAux fuel l = groupDigits l := by
  unfold groupDigits
  have h1 : fuel = l.length + (fuel - l.length) := by omega
  rw [h1, groupDigitsAux_add l.length l (le_refl _) (fuel - l.length)]

/-- One grouping step on a long list. -/
theorem groupDigits_step (l : List Char) (h : ¬ l.length ≤ 3) :
    groupDigits l =
      l.take ((l.length - 1) % 3 + 1) ++ '.' ::
        groupDigits (l.drop ((l.length - 1) % 3 + 1)) := by
  show groupDigitsAux l.length l = _
  cases hl : l.length with
  | zero => omega
  | succ m =>
    unfold groupDigitsAux
    rw [if_neg (by omega)]
    rw [hl]
    simp only [List.append_cancel_left_eq, List.cons.injEq, true_and]
    rw [groupDigitsAux_eq_groupDigits m _ (by simp only [List.length_drop]; omega)]

/-- Every character of a grouping is a separator or from the input. -/
theorem mem_groupDigits : ∀ (n : ℕ) (l : List Char), l.length ≤ n →
    ∀ c ∈ groupDigits l, c = '.' ∨ c ∈ l := by
  intro n
  induction n with
  | zero =>
    intro l h c hc
    have hl : l = [] := List.length_eq_zero.mp (by omega)
    subst hl
    rw [groupDigits_of_le _ (by simp)] at hc
    simp at hc
  | succ f ih =>
    intro l h c hc
    by_cases h3 : l.length ≤ 3
    · rw [groupDigits_of_le _ h3] at hc
      exact Or.inr hc
    · rw [groupDigits_step l h3] at hc
      rcases List.mem_append.mp hc with h1 | h1
      · exact Or.inr (List.mem_of_mem_take h1)
      · rcases List.mem_cons.mp h1 with h2 | h2
        · exact Or.inl h2
        · rcases ih _ (by simp only [List.length_drop]; omega) c h2 with h4 | h4
          · exact Or.inl h4
          · exact Or.inr (List.mem_of_mem_drop h4)

/-- A long list's grouping contains the separator. -/
theorem dot_mem_groupDigits (l : List Char) (h : 3 < l.length) :
    '.' ∈ groupDigits l := by
  rw [groupDigits_step l (by omega)]
  exact List.mem_append.mpr (Or.inr (List.mem_cons_self _ _))

/-- Deleting the separators undoes the grouping. -/
theorem filter_groupDigits : ∀ (n : ℕ) (l : List Char), l.length ≤ n →
    '.' ∉ l → (groupDigits l).filter (fun y => y != '.') = l := by
  intro n
  induction n with
  | zero =>
    intro l h _
    have hl : l = [] := List.length_eq_zero.mp (by omega)
    subst hl
    rw [groupDigits_of_le _ (by simp)]
    rfl
  | succ f ih =>
    intro l h hdot
    by_cases h3 : l.length ≤ 3
    · rw [groupDigits_of_le _ h3]
      exact List.filter_eq_self.mpr fun y hy => by
        simp only [bne_iff_ne, ne_eq, decide_eq_true_eq]
        exact fun hy' => hdot (hy' ▸ hy)
    · rw [groupDigits_step l h3, List.filter_append, List.filter_cons,
        if_neg (by simp)]
      rw [List.filter_eq_self.mpr fun y hy => by
        simp only [bne_iff_ne, ne_eq, decide_eq_true_eq]
        exact fun hy' => hdot (hy' ▸ List.mem_of_mem_take hy)]
      rw [ih _ (by simp only [List.length_drop]; omega)
        (fun hy => hdot (List.mem_of_mem_drop hy))]
      exact List.take_append_drop _ l

/-- `split` on a list without the separator. -/
theorem splitOnCh_of_not_mem (c : Char) :
    ∀ l : List Char, c ∉ l → splitOnCh c l = [l] := by
  intro l
  induction l with
  | nil => intro _; rfl
  | cons x xs ih =>
    intro h
    simp only [List.mem_cons, not_or] at h
    rw [splitOnCh_cons_eq c x xs xs []
      (by rw [ih h.2]), if_neg (fun hh => h.1 hh.symm)]

/-- `split` across the first separator occurrence. -/
theorem splitOnCh_append_cons (c : Char) (l₂ : List Char) :
    ∀ l₁ : List Char, c ∉ l₁ →
      splitOnCh c (l₁ ++ c :: l₂) = l₁ :: splitOnCh c l₂ := by
  intro l₁
  induction l₁ with
  | nil =>
    intro _
    cases hsp : splitOnCh c l₂ with
    | nil => exact absurd hsp (splitOnCh_ne_nil c l₂)
    | cons hd t =>
      rw [List.nil_append, splitOnCh_cons_eq c c l₂ hd t hsp, if_pos rfl]
  | cons x xs ih =>
    intro h
    simp only [List.mem_cons, not_or] at h
    have hih := ih h.2
    cases hsp : splitOnCh c (xs ++ c :: l₂) with
    | nil => exact absurd hsp (splitOnCh_ne_nil c _)
    | cons hd t =>
      rw [hsp] at hih
      obtain ⟨rfl, rfl⟩ := List.cons_eq_cons.mp hih
      rw [List.cons_append, splitOnCh_cons_eq c x _ _ _ hsp,
        if_neg (fun hh => h.1 hh.symm)]

/-! ## Parse-of-format lemmas (for C3) -/

/-- `dropWhile` does nothing when no element satisfies the predicate. -/
theorem dropWhile_eq_self_of_all (p : Char → Bool) (l : List Char)
    (h : ∀ c ∈ l, p c = false) : l.dropWhile p = l := by
  cases l with
  | nil => rfl
  | cons x xs =>
    rw [List.dropWhile_cons,
      if_neg (by rw [h x (List.mem_cons_self x xs)]; exact Bool.false_ne_true)]

/-- `strip` does nothing on a string without whitespace. -/
theorem pyStrip_eq_self (l : List Char) (h : ∀ c ∈ l, isSpaceCh c = false) :
    pyStrip l = l := by
  unfold pyStrip
  rw [dropWhile_eq_self_of_all _ _ h,
    dropWhile_eq_self_of_all _ _ (fun c hc => h c (List.mem_reverse.mp hc)),
    List.reverse_reverse]

/-- The comma-to-dot replacement does nothing on comma-free text. -/
theorem map_swapComma_eq_self (l : List Char) (h : ',' ∉ l) :
    l.map (fun c => if c = ',' then '.' else c) = l := by
  induction l with
  | nil => rfl
  | cons x xs ih =>
    simp only [List.mem_cons, not_or] at h
    rw [List.map_cons, if_neg (fun hh => h.1 hh.symm), ih h.2]

/-- The separator normalization of `parse_amount_input` on a body shaped
like `format_amount_display` output (grouped integer digits, optional
comma and fraction digits) recovers plain digits with a dot decimal
separator. -/
theorem normalizeSeparators_formatted (ipR fpR : List Char) (d : ℕ)
    (hip : ∀ c ∈ ipR, isDigitCh c = true)
    (_hipne : ipR ≠ [])
    (hfp : ∀ c ∈ fpR, isDigitCh c = true) :
    normalizeSeparators (groupDigits ipR ++ (if d = 0 then [] else ',' :: fpR)) =
      ipR ++ (if d = 0 then [] else '.' :: fpR) := by
  have hdotip : '.' ∉ ipR := fun hh => (isDigitCh_props _ (hip _ hh)).1 rfl
  have hcomip : ',' ∉ ipR := fun hh => (isDigitCh_props _ (hip _ hh)).2.1 rfl
  have hdotfp : '.' ∉ fpR := fun hh => (isDigitCh_props _ (hfp _ hh)).1 rfl
  have hcomfp : ',' ∉ fpR := fun hh => (isDigitCh_props _ (hfp _ hh)).2.1 rfl
  have hcomG : ',' ∉ groupDigits ipR := by
    intro hh
    rcases mem_groupDigits ipR.length ipR (le_refl _) ',' hh with h1 | h1
    · exact absurd h1 (by decide)
    · exact hcomip h1
  by_cases hd0 : d = 0
  · rw [if_pos hd0, if_pos hd0, List.append_nil, List.append_nil]
    by_cases hlen : ipR.length ≤ 3
    · rw [groupDigits_of_le _ hlen]
      unfold normalizeSeparators
      rw [if_neg (fun hh => hdotip hh.1), if_neg (fun hh => hcomip hh.1),
        if_neg (fun hh => hdotip hh.1)]
    · have hdotG : '.' ∈ groupDigits ipR := dot_mem_groupDigits _ (by omega)
      unfold normalizeSeparators
      rw [if_neg (fun hh => hcomG hh.2), if_neg (fun hh => hcomG hh.1),
        if_pos ⟨hdotG, hcomG⟩]
      by_cases h6 : ipR.length ≤ 6
      · have hdrop3 : (ipR.drop ((ipR.length - 1) % 3 + 1)).length = 3 := by
          simp only [List.length_drop]
          omega
        have hstep : groupDigits ipR =
            ipR.take ((ipR.length - 1) % 3 + 1) ++ '.' ::
              ipR.drop ((ipR.length - 1) % 3 + 1) := by
          rw [groupDigits_step ipR (by omega),
            groupDigits_of_le _ (by rw [hdrop3])]
        have hsplit : splitOnCh '.' (groupDigits ipR) =
            [ipR.take ((ipR.length - 1) % 3 + 1),
              ipR.drop ((ipR.length - 1) % 3 + 1)] := by
          rw [hstep, splitOnCh_append_cons '.' _ _
              (fun hh => hdotip (List.mem_of_mem_take hh)),
            splitOnCh_of_not_mem '.' _
              (fun hh => hdotip (List.mem_of_mem_drop hh))]
        rw [hsplit, if_neg (by simp)]
        dsimp only
        rw [if_pos ⟨hdrop3, by rw [List.length_take]; omega⟩]
        exact List.take_append_drop _ ipR
      · have hdropLen : 3 < (ipR.drop ((ipR.length - 1) % 3 + 1)).length := by
          simp only [List.length_drop]
          omega
        have hdotG' : '.' ∈ groupDigits (ipR.drop ((ipR.length - 1) % 3 + 1)) :=
          dot_mem_groupDigits _ hdropLen
        have hsplit : splitOnCh '.' (groupDigits ipR) =
            ipR.take ((ipR.length - 1) % 3 + 1) ::
              splitOnCh '.' (groupDigits (ipR.drop ((ipR.length - 1) % 3 + 1))) := by
          rw [groupDigits_step ipR (by omega), splitOnCh_append_cons '.' _ _
            (fun hh => hdotip (List.mem_of_mem_take hh))]
        have hlen3 : 2 < (splitOnCh '.' (groupDigits ipR)).length := by
          rw [hsplit]
          simp only [List.length_cons, length_splitOnCh]
          have hc0 : 0 < (groupDigits (ipR.drop ((ipR.length - 1) % 3 + 1))).count '.' :=
            List.count_pos_iff.mpr hdotG'
          omega
        rw [if_pos hlen3, flatten_splitOnCh,
          filter_groupDigits ipR.length ipR (le_refl _) hdotip]
  · rw [if_neg hd0, if_neg hd0]
    have hcomB : ',' ∈ groupDigits ipR ++ ',' :: fpR :=
      List.mem_append.mpr (Or.inr (List.mem_cons_self _ _))
    have hdotTail : '.' ∉ (',' :: fpR : List Char) := by
      simp only [List.mem_cons, not_or]
      exact ⟨by decide, hdotfp⟩
    by_cases hlen : ipR.length ≤ 3
    · have hdotB : '.' ∉ groupDigits ipR ++ ',' :: fpR := by
        rw [groupDigits_of_le _ hlen]
        intro hh
        rcases List.mem_append.mp hh with h1 | h1
        · exact hdotip h1
        · exact hdotTail h1
      unfold normalizeSeparators
      rw [if_neg (fun hh => hdotB hh.1), if_pos ⟨hcomB, hdotB⟩,
        groupDigits_of_le _ hlen, List.map_append,
        map_swapComma_eq_self _ hcomip, List.map_cons, if_pos rfl,
        map_swapComma_eq_self _ hcomfp]
    · have hdotB : '.' ∈ groupDigits ipR ++ ',' :: fpR :=
        List.mem_append.mpr (Or.inl (dot_mem_groupDigits _ (by omega)))
      unfold normalizeSeparators
      rw [if_pos ⟨hdotB, hcomB⟩]
      rw [List.filter_append, filter_groupDigits ipR.length ipR (le_refl _) hdotip,
        List.filter_cons, if_pos (by decide),
        List.filter_eq_self.mpr (fun y hy => by
          simp only [bne_iff_ne, ne_eq, decide_eq_true_eq]
          exact fun hy' => hdotfp (hy' ▸ hy))]
      rw [List.map_append, map_swapComma_eq_self _ hcomip, List.map_cons,
        if_pos rfl, map_swapComma_eq_self _ hcomfp]

/-- `float()` on a canonical decimal body: plain digits, or digits, dot,
digits. -/
theorem pyFloat_formatted (ipR fpR : List Char) (d : ℕ)
    (hip : ∀ c ∈ ipR, isDigitCh c = true) (hipne : ipR ≠ [])
    (hfp : ∀ c ∈ fpR, isDigitCh c = true) :
    pyFloat (ipR ++ (if d = 0 then [] else '.' :: fpR)) =
      some ((digitsToNat ipR : ℚ) +
        (if d = 0 then 0 else (digitsToNat fpR : ℚ) / 10 ^ fpR.length)) := by
  cases ipR with
  | nil => exact absurd rfl hipne
  | cons c rest =>
    have hprops := isDigitCh_props c (hip c (List.mem_cons_self _ _))
    have hdotip : '.' ∉ (c :: rest : List Char) :=
      fun hh => (isDigitCh_props _ (hip _ hh)).1 rfl
    unfold pyFloat
    dsimp only
    rw [List.cons_append, List.head?_cons,
      if_neg (fun hh => hprops.2.2.1 (Option.some.inj hh)),
      if_neg (by
        rintro (hh | hh)
        · exact hprops.2.2.1 (Option.some.inj hh)
        · exact hprops.2.2.2.1 (Option.some.inj hh))]
    by_cases hd0 : d = 0
    · rw [if_pos hd0, if_pos hd0, List.append_nil]
      rw [splitOnCh_of_not_mem '.' _ hdotip]
      dsimp only
      rw [if_pos ⟨List.cons_ne_nil c rest,
        List.all_eq_true.mpr fun x hx => hip x hx⟩]
      rw [one_mul, add_zero]
    · rw [if_neg hd0, if_neg hd0, ← List.cons_append]
      rw [splitOnCh_append_cons '.' fpR _ hdotip,
        splitOnCh_of_not_mem '.' fpR
          (fun hh => (isDigitCh_props _ (hfp _ hh)).1 rfl)]
      dsimp only
      rw [if_pos ⟨Or.inl (List.cons_ne_nil c rest),
        List.all_eq_true.mpr fun x hx => hip x hx,
        List.all_eq_true.mpr fun x hx => hfp x hx⟩]
      rw [one_mul]

/-- Round-half-even never lands below zero on a nonnegative input. -/
theorem rndHalfEven_nonneg (q : ℚ) (h : 0 ≤ q) : 0 ≤ rndHalfEven q := by
  unfold rndHalfEven
  dsimp only
  have hf : (0 : ℤ) ≤ ⌊q⌋ := Int.floor_nonneg.mpr h
  split_ifs <;> omega

/-- Round-half-even never lands above zero on a negative input. -/
theorem rndHalfEven_nonpos (q : ℚ) (h : q < 0) : rndHalfEven q ≤ 0 := by
  unfold rndHalfEven
  dsimp only
  have hf : ⌊q⌋ < 0 := by
    by_contra hge
    exact absurd (Int.floor_nonneg.mp (by omega)) (not_le.mpr h)
  split_ifs <;> omega

/-- Round-half-even is within half a unit of its input. -/
theorem rndHalfEven_abs_le (q : ℚ) : |(rndHalfEven q : ℚ) - q| ≤ 1 / 2 := by
  unfold rndHalfEven
  dsimp only
  have h1 : (⌊q⌋ : ℚ) ≤ q := Int.floor_le q
  have h2 : q < ⌊q⌋ + 1 := Int.lt_floor_add_one q
  split_ifs with ha hb hc <;>
    · push_cast
      rw [abs_le]
      constructor <;> linarith

/-- Integer and fractional digit values reassemble into the quotient. -/
theorem natAbs_value_eq (m d : ℕ) :
    ((m / 10 ^ d : ℕ) : ℚ) +
      (if d = 0 then (0 : ℚ) else ((m % 10 ^ d : ℕ) : ℚ) / 10 ^ d) =
      (m : ℚ) / 10 ^ d := by
  by_cases hd : d = 0
  · subst hd
    simp
  · rw [if_neg hd]
    have h10 : ((10 : ℚ) ^ d) ≠ 0 := by positivity
    rw [eq_div_iff h10, add_mul, div_mul_cancel₀ _ h10]
    have hnat : (m / 10 ^ d) * 10 ^ d + m % 10 ^ d = m := by
      rw [Nat.mul_comm]
      exact Nat.div_add_mod m (10 ^ d)
    exact_mod_cast hnat

/-- `String.mk` and `String.toList` are inverse. -/
theorem toList_mk (l : List Char) : (String.mk l).toList = l := rfl

/-- `parse_amount_input` on a string shaped like `format_amount_display`
output: optional minus sign, grouped integer digits, optional comma and
fraction digits.  The parse recovers the signed decimal value. -/
theorem parseAmount_body (sgn : Bool) (ipR fpR : List Char) (d : ℕ)
    (hip : ∀ c ∈ ipR, isDigitCh c = true) (hipne : ipR ≠ [])
    (hfp : ∀ c ∈ fpR, isDigitCh c = true) :
    parseAmount (String.mk ((if sgn then ['-'] else []) ++
        (groupDigits ipR ++ (if d = 0 then [] else ',' :: fpR)))) =
      some ((if sgn then (-1 : ℚ) else 1) *
        ((digitsToNat ipR : ℚ) +
          (if d = 0 then 0 else (digitsToNat fpR : ℚ) / 10 ^ fpR.length))) := by
  have hBmem : ∀ c ∈ groupDigits ipR ++ (if d = 0 then [] else ',' :: fpR),
      isDigitCh c = true ∨ c = '.' ∨ c = ',' := by
    intro c hc
    rcases List.mem_append.mp hc with h1 | h1
    · rcases mem_groupDigits ipR.length ipR (le_refl _) c h1 with h2 | h2
      · exact Or.inr (Or.inl h2)
      · exact Or.inl (hip c h2)
    · by_cases hd0 : d = 0
      · rw [if_pos hd0] at h1
        simp at h1
      · rw [if_neg hd0] at h1
        rcases List.mem_cons.mp h1 with h2 | h2
        · exact Or.inr (Or.inr h2)
        · exact Or.inl (hfp c h2)
  have hBnospace : ∀ c ∈ groupDigits ipR ++ (if d = 0 then [] else ',' :: fpR),
      isSpaceCh c = false := by
    intro c hc
    rcases hBmem c hc with h | h | h
    · exact (isDigitCh_props c h).2.2.2.2.2.2
    · subst h; decide
    · subst h; decide
  have hBne : groupDigits ipR ++ (if d = 0 then [] else ',' :: fpR) ≠ [] := by
    intro hh
    rcases List.append_eq_nil.mp hh with ⟨h1, _⟩
    have hfg := filter_groupDigits ipR.length ipR (le_refl _)
      (fun hd => (isDigitCh_props _ (hip _ hd)).1 rfl)
    rw [h1] at hfg
    simp only [List.filter_nil] at hfg
    exact hipne hfg.symm
  have hfilter :
      (ipR ++ (if d = 0 then [] else '.' :: fpR)).filter
        (fun c => c != ' ' && c != apoCh) =
        ipR ++ (if d = 0 then [] else '.' :: fpR) := by
    apply List.filter_eq_self.mpr
    intro c hc
    have hok : isDigitCh c = true ∨ c = '.' := by
      rcases List.mem_append.mp hc with h1 | h1
      · exact Or.inl (hip c h1)
      · by_cases hd0 : d = 0
        · rw [if_pos hd0] at h1
          simp at h1
        · rw [if_neg hd0] at h1
          rcases List.mem_cons.mp h1 with h2 | h2
          · exact Or.inr h2
          · exact Or.inl (hfp c h2)
    rcases hok with h | h
    · have hp := isDigitCh_props c h
      simp [bne_iff_ne, hp.2.2.2.2.1, hp.2.2.2.2.2.1]
    · subst h
      decide
  unfold parseAmount
  dsimp only
  rw [toList_mk]
  cases sgn with
  | true =>
    rw [if_pos rfl, if_pos rfl, List.singleton_append]
    have hstrip : pyStrip ('-' ::
        (groupDigits ipR ++ (if d = 0 then [] else ',' :: fpR))) =
        '-' :: (groupDigits ipR ++ (if d = 0 then [] else ',' :: fpR)) := by
      apply pyStrip_eq_self
      intro c hc
      rcases List.mem_cons.mp hc with h | h
      · subst h; decide
      · exact hBnospace c h
    rw [hstrip, if_neg (List.cons_ne_nil _ _), List.head?_cons, if_pos rfl,
      if_pos (Or.inl rfl), List.tail_cons,
      pyStrip_eq_self _ hBnospace,
      normalizeSeparators_formatted ipR fpR d hip hipne hfp, hfilter,
      pyFloat_formatted ipR fpR d hip hipne hfp]
    rfl
  | false =>
    rw [if_neg Bool.false_ne_true, if_neg Bool.false_ne_true, List.nil_append,
      pyStrip_eq_self _ hBnospace, if_neg hBne]
    obtain ⟨b0, Brest, hBcons⟩ := List.exists_cons_of_ne_nil hBne
    have hb0 : isDigitCh b0 = true ∨ b0 = '.' ∨ b0 = ',' :=
      hBmem b0 (by rw [hBcons]; exact List.mem_cons_self _ _)
    have hb0ne : b0 ≠ '-' ∧ b0 ≠ '+' := by
      rcases hb0 with h | h | h
      · exact ⟨(isDigitCh_props _ h).2.2.1, (isDigitCh_props _ h).2.2.2.1⟩
      · subst h; exact ⟨by decide, by decide⟩
      · subst h; exact ⟨by decide, by decide⟩
    have hh : (groupDigits ipR ++ (if d = 0 then [] else ',' :: fpR)).head? =
        some b0 := by
      rw [hBcons]
      rfl
    rw [hh, if_neg (fun hc => hb0ne.1 (Option.some.inj hc)),
      if_neg (by
        rintro (hc | hc)
        · exact hb0ne.1 (Option.some.inj hc)
        · exact hb0ne.2 (Option.some.inj hc)),
      normalizeSeparators_formatted ipR fpR d hip hipne hfp, hfilter,
      pyFloat_formatted ipR fpR d hip hipne hfp]
    rfl

/-- The decimal value rendered at `d` places reads back as `m / 10 ^ d`. -/
theorem padded_value (m d : ℕ) :
    (digitsToNat (natRender (m / 10 ^ d)) : ℚ) +
      (if d = 0 then (0 : ℚ)
        else (digitsToNat (List.replicate
            (d - (natRender (m % 10 ^ d)).length) '0' ++
            natRender (m % 10 ^ d)) : ℚ) /
          10 ^ (List.replicate (d - (natRender (m % 10 ^ d)).length) '0' ++
            natRender (m % 10 ^ d)).length) =
      (m : ℚ) / 10 ^ d := by
  rw [digitsToNat_natRender, digitsToNat_replicate_zero, digitsToNat_natRender]
  by_cases hd0 : d = 0
  · subst hd0
    simp
  · rw [if_neg hd0]
    have hlen : (List.replicate (d - (natRender (m % 10 ^ d)).length) '0' ++
        natRender (m % 10 ^ d)).length = d := by
      simp only [List.length_append, List.length_replicate]
      have hlt : m % 10 ^ d < 10 ^ d := Nat.mod_lt _ (by positivity)
      have hle := natRender_length_le (m % 10 ^ d) d (by omega) hlt
      omega
    rw [hlen]
    have hv := natAbs_value_eq m d
    rw [if_neg hd0] at hv
    exact hv

/-- `parse_amount_input` inverts `format_amount_display` exactly onto the
rounded decimal value. -/
theorem parseAmount_formatAmount (v : ℚ) (d : ℕ) :
    parseAmount (formatAmount v d) =
      some (((rndHalfEven (v * 10 ^ d) : ℤ) : ℚ) / 10 ^ d) := by
  have hfpd : ∀ c ∈ List.replicate
      (d - (natRender ((rndHalfEven (v * 10 ^ d)).natAbs % 10 ^ d)).length) '0' ++
      natRender ((rndHalfEven (v * 10 ^ d)).natAbs % 10 ^ d),
      isDigitCh c = true := by
    intro c hc
    rcases List.mem_append.mp hc with h1 | h1
    · rw [List.eq_of_mem_replicate h1]
      decide
    · exact natRender_digits _ _ h1
  by_cases hv : v < 0
  · have hfmt : formatAmount v d = String.mk
        ((if (true : Bool) then ['-'] else []) ++
          (groupDigits (natRender ((rndHalfEven (v * 10 ^ d)).natAbs / 10 ^ d)) ++
            (if d = 0 then [] else ',' :: (List.replicate
              (d - (natRender ((rndHalfEven (v * 10 ^ d)).natAbs % 10 ^ d)).length) '0' ++
              natRender ((rndHalfEven (v * 10 ^ d)).natAbs % 10 ^ d))))) := by
      unfold formatAmount
      rw [if_pos hv]
      rfl
    rw [hfmt, parseAmount_body true _ _ d (natRender_digits _)
      (natRender_ne_nil _) hfpd, if_pos rfl, padded_value]
    have hq : v * 10 ^ d < 0 := mul_neg_of_neg_of_pos hv (by positivity)
    have hn0 : rndHalfEven (v * 10 ^ d) ≤ 0 := rndHalfEven_nonpos _ hq
    congr 1
    rw [Int.cast_natAbs, abs_of_nonpos (by exact_mod_cast hn0)]
    push_cast
    ring
  · have hfmt : formatAmount v d = String.mk
        ((if (false : Bool) then ['-'] else []) ++
          (groupDigits (natRender ((rndHalfEven (v * 10 ^ d)).natAbs / 10 ^ d)) ++
            (if d = 0 then [] else ',' :: (List.replicate
              (d - (natRender ((rndHalfEven (v * 10 ^ d)).natAbs % 10 ^ d)).length) '0' ++
              natRender ((rndHalfEven (v * 10 ^ d)).natAbs % 10 ^ d))))) := by
      unfold formatAmount
      rw [if_neg hv]
      rfl
    rw [hfmt, parseAmount_body false _ _ d (natRender_digits _)
      (natRender_ne_nil _) hfpd, if_neg Bool.false_ne_true, padded_value]
    have hq : (0 : ℚ) ≤ v * 10 ^ d :=
      mul_nonneg (not_lt.mp hv) (by positivity)
    have hn0 : 0 ≤ rndHalfEven (v * 10 ^ d) := rndHalfEven_nonneg _ hq
    congr 1
    rw [Int.cast_natAbs, abs_of_nonneg (by exact_mod_cast hn0)]
    ring

/-- The rounded value is within `10^-d` of the original. -/
theorem roundtrip_bound (v : ℚ) (d : ℕ) :
    |((rndHalfEven (v * 10 ^ d) : ℤ) : ℚ) / 10 ^ d - v| ≤ 1 / 10 ^ d := by
  have h10 : (0 : ℚ) < 10 ^ d := by positivity
  have hb := rndHalfEven_abs_le (v * 10 ^ d)
  have heq : ((rndHalfEven (v * 10 ^ d) : ℤ) : ℚ) / 10 ^ d - v =
      (((rndHalfEven (v * 10 ^ d) : ℤ) : ℚ) - v * 10 ^ d) / 10 ^ d := by
    field_simp
    ring
  rw [heq, abs_div, abs_of_pos h10, div_le_div_iff₀ h10 h10]
  calc |((rndHalfEven (v * 10 ^ d) : ℤ) : ℚ) - v * 10 ^ d| * 10 ^ d
      ≤ (1 / 2) * 10 ^ d := by
        exact mul_le_mul_of_nonneg_right hb (le_of_lt h10)
    _ ≤ 1 * 10 ^ d := by
        apply mul_le_mul_of_nonneg_right _ (le_of_lt h10)
        norm_num

/-- **C3** (amended): `parse_amount_input` applied to
`format_amount_display` output recovers the original value only to within
`10^-d` (the display rounds to `d` decimals, 2 by default), not to within
`1e-9`: for every parsed value `x`, formatting at 2 decimals and
re-parsing succeeds and is within `10^-2` of `x`; in general formatting
any value at `d` decimals and re-parsing succeeds and is within `10^-d`. -/
theorem c3_parse_format_roundtrip :
    (∀ (t : String) (x : ℚ), parseAmount t = some x →
      ∃ y, parseAmount (formatAmount x 2) = some y ∧ |y - x| ≤ 1 / 10 ^ 2) ∧
    (∀ (v : ℚ) (d : ℕ),
      ∃ y, parseAmount (formatAmount v d) = some y ∧ |y - v| ≤ 1 / 10 ^ d) := by
  constructor
  · intro t x _
    exact ⟨_, parseAmount_formatAmount x 2, roundtrip_bound x 2⟩
  · intro v d
    exact ⟨_, parseAmount_formatAmount v d, roundtrip_bound v d⟩

/-- Witness for C3 at a concrete input: `"0,001"` parses to `1/1000`;
formatting at two decimals and re-parsing lands within `10^-2` of it. -/
theorem c3_parse_format_roundtrip_witness :
    ∃ y, parseAmount (formatAmount (1 / 1000 : ℚ) 2) = some y ∧
      |y - 1 / 1000| ≤ 1 / 10 ^ 2 :=
  c3_parse_format_roundtrip.1 "0,001" (1 / 1000) (by decide!)

/-- Witness for C4 at concrete inputs: `"1.234"` is thousands-grouped to
`"1234"`, while `"123.45"` keeps its dot as a decimal separator. -/
theorem c4_dot_only_rule_witness :
    normalizeSeparators ("1.234".toList) = "1234".toList ∧
    normalizeSeparators ("123.45".toList) = "123.45".toList := by
  have ha := c4_dot_only_rule ("1.234".toList) (by decide) (by decide)
  have hb := c4_dot_only_rule ("123.45".toList) (by decide) (by decide)
  constructor
  · rw [ha]
    decide
  · rw [hb]
    decide

/-- Witness for C6 at a concrete state: from `exSorted` (ascending by
amount, ids 1 and 2, next fresh id 3), adding `"4"` and undoing restores
table and store exactly. -/
theorem c6_add_undo_roundtrip_witness :
    (undoOp (addItem "2025-03-01" exSorted "2025-01-02" "Gelir" "kiraz" "4")).store.rows =
      exSorted.store.rows ∧
    List.Perm
      (undoOp (addItem "2025-03-01" exSorted "2025-01-02" "Gelir" "kiraz" "4")).df
      exSorted.df ∧
    (exSorted.sortState.col ≠ some "percent" →
      (undoOp (addItem "2025-03-01" exSorted "2025-01-02" "Gelir" "kiraz" "4")).df =
        exSorted.df) :=
  c6_add_undo_roundtrip "2025-03-01" "2025-01-02" "Gelir" "kiraz" "4"
    exSorted 4
    (by intro c hc hcol; injection hcol with h; subst h; decide!)
    (by decide) (by decide) (by decide!) rfl

end CashApp
